import Mathlib

/-!
Verification development for the IR signal codec core of the RP_UI_App
repository.  The Python sources under `src/ir/` and the capture-aggregation
methods of `src/ui/app.py` are shallowly embedded below: pure functions become
Lean functions on `List Int` / `String`, Python exceptions become
`Except.error`, and Python `None` becomes `Option.none`.  Python float
arithmetic (tolerance fractions, medians, `round`, `int()` truncation) is
modelled by exact integer/rational arithmetic, noted at each definition.
-/

namespace IR

/-- `DecodedIR` dataclass from `ir_decode.py`. -/
structure DecodedIR where
  protocol : String
  address : String
  command : String
  bits : Nat
deriving DecidableEq

/-- `_match_us(value, target, tolerance_us)`. -/
def match_us (value target tolerance_us : Int) : Bool :=
  decide (|value - target| ≤ tolerance_us)

/-- `_approx(value, target, tolerance)`.  The float tolerance is passed as the
exact fraction `tolNum / tolDen`; the comparison `abs(value - target) <=
target * tolerance` is carried out exactly over the integers. -/
def approx (value target : Int) (tolNum tolDen : Int) : Bool :=
  if target ≤ 0 then false
  else decide (tolDen * |value - target| ≤ tolNum * target)

/-- `_bits_to_int(bits)` with the default `lsb_first=True`. -/
def bits_to_int_lsb (bits : List Nat) : Nat :=
  (bits.enum).foldl (fun total p => if p.2 != 0 then total ||| (1 <<< p.1) else total) 0

/-- `_bits_to_int(bits, lsb_first=False)`. -/
def bits_to_int_msb (bits : List Nat) : Nat :=
  bits.foldl (fun total bit => (total <<< 1) ||| (if bit != 0 then 1 else 0)) 0

/-- Hex digit character; `upper` selects the `X`/`x` alphabet. -/
def hexDigit (n : Nat) (upper : Bool) : Char :=
  if n < 10 then Char.ofNat (48 + n) else Char.ofNat ((if upper then 55 else 87) + n)

/-- Hexadecimal digits of `n`, most significant first (fuelled recursion). -/
def natHexCharsAux (upper : Bool) : Nat → Nat → List Char
  | 0, _ => []
  | fuel + 1, n =>
    if n < 16 then [hexDigit n upper]
    else natHexCharsAux upper fuel (n / 16) ++ [hexDigit (n % 16) upper]

def natHexChars (n : Nat) (upper : Bool) : List Char := natHexCharsAux upper (n + 1) n

def leftPad (c : Char) (width : Nat) (l : List Char) : List Char :=
  List.replicate (width - l.length) c ++ l

/-- Python `f"{value:02X}"`. -/
def format02X (value : Nat) : String := ⟨leftPad '0' 2 (natHexChars value true)⟩

/-- `_format_bytes(values)`: space-joined `%02X` pairs, or `"00"` when empty. -/
def format_bytes (values : List Nat) : String :=
  if values = [] then "00" else String.intercalate " " (values.map format02X)

/-- `_format_int_bytes(value, bit_count)`. -/
def format_int_bytes (value : Nat) (bit_count : Nat) : String :=
  let byteLen := max 1 ((bit_count + 7) / 8)
  format_bytes ((List.range byteLen).map fun idx => (value >>> (8 * (byteLen - 1 - idx))) &&& 0xFF)

/-- `_normalize_timings(samples)`: drop zeros, drop one leading space, take
absolute values, trim to even length, and drop one trailing gap over 15000µs
(re-trimming to even length afterwards).  The Python early return for an empty
input coincides with the empty-filter case. -/
def normalize_timings (samples : List Int) : List Int :=
  match samples.filter (fun v => v != 0) with
  | [] => []
  | first :: rest =>
    let signed := if first < 0 then rest else first :: rest
    let absValues := signed.map (fun v => |v|)
    let absValues := if absValues.length % 2 == 1 then absValues.dropLast else absValues
    if absValues.getLastD 0 > 15000 then
      let trimmed := absValues.dropLast
      if trimmed.length % 2 == 1 then trimmed.dropLast else trimmed
    else absValues

/-- Loop body of `_decode_pulse_distance`: consume `(pulse, space)` pairs while
at least two samples remain and fewer than `expected_bits` bits were read. -/
def pd_go (pulse_us zero_space_us one_space_us tolerance_us : Int) (expected_bits : Nat) :
    List Int → List Nat → List Nat
  | p :: s :: rest, bits =>
    if bits.length < expected_bits then
      if !match_us p pulse_us tolerance_us then bits
      else if match_us s zero_space_us tolerance_us then
        pd_go pulse_us zero_space_us one_space_us tolerance_us expected_bits rest (bits ++ [0])
      else if match_us s one_space_us tolerance_us then
        pd_go pulse_us zero_space_us one_space_us tolerance_us expected_bits rest (bits ++ [1])
      else bits
    else bits
  | _, bits => bits

/-- `_decode_pulse_distance(samples, pulse_us, zero_space_us, one_space_us,
expected_bits, tolerance_us)`. -/
def decode_pulse_distance (samples : List Int) (pulse_us zero_space_us one_space_us : Int)
    (expected_bits : Nat) (tolerance_us : Int) : Option (List Nat) :=
  let bits := pd_go pulse_us zero_space_us one_space_us tolerance_us expected_bits samples []
  if bits.length < expected_bits then none else some bits

/-- `_decode_nec(samples)`. -/
def decode_nec (samples : List Int) : Option DecodedIR :=
  if samples.length < 2 then none
  else
    let pulse := samples.getD 0 0
    let space := samples.getD 1 0
    if !(match_us pulse 9000 200 && match_us space 4500 200) then none
    else
      match decode_pulse_distance (samples.drop 2) 560 560 1690 32 120 with
      | none => none
      | some bits =>
        if bits = [] || bits.length < 32 then none
        else
          let bytes_ := ([0, 8, 16, 24].map fun i => bits_to_int_lsb ((bits.drop i).take 8))
          if (bytes_.getD 0 0 ^^^ 0xFF) == bytes_.getD 1 0
              && (bytes_.getD 2 0 ^^^ 0xFF) == bytes_.getD 3 0 then
            some ⟨"NEC", format_bytes [bytes_.getD 0 0], format_bytes [bytes_.getD 2 0], 32⟩
          else none

/-- `_decode_nec_ext(samples)`. -/
def decode_nec_ext (samples : List Int) : Option DecodedIR :=
  if samples.length < 2 then none
  else
    let pulse := samples.getD 0 0
    let space := samples.getD 1 0
    if !(match_us pulse 9000 200 && match_us space 4500 200) then none
    else
      match decode_pulse_distance (samples.drop 2) 560 560 1690 32 120 with
      | none => none
      | some bits =>
        if bits = [] || bits.length < 32 then none
        else
          let bytes_ := ([0, 8, 16, 24].map fun i => bits_to_int_lsb ((bits.drop i).take 8))
          some ⟨"NECext", format_bytes (bytes_.take 2), format_bytes ((bytes_.drop 2).take 2), 32⟩

/-- `_decode_samsung(samples)`. -/
def decode_samsung (samples : List Int) : Option DecodedIR :=
  if samples.length < 2 then none
  else
    let pulse := samples.getD 0 0
    let space := samples.getD 1 0
    if !(match_us pulse 4500 200 && match_us space 4500 200) then none
    else
      match decode_pulse_distance (samples.drop 2) 550 550 1650 32 120 with
      | none => none
      | some bits =>
        if bits = [] || bits.length < 32 then none
        else
          let bytes_ := ([0, 8, 16, 24].map fun i => bits_to_int_lsb ((bits.drop i).take 8))
          some ⟨"Samsung32", format_bytes (bytes_.take 2), format_bytes ((bytes_.drop 2).take 2), 32⟩

/-- `_decode_jvc(samples)`; tolerances 0.25 and 0.3 as exact fractions. -/
def decode_jvc (samples : List Int) : Option DecodedIR :=
  if samples.length < 2 then none
  else
    let pulse := samples.getD 0 0
    let space := samples.getD 1 0
    if !(approx pulse 8400 1 4 && approx space 4200 3 10) then none
    else
      match decode_pulse_distance (samples.drop 2) 525 525 1575 16 120 with
      | none => none
      | some bits =>
        if bits = [] || bits.length < 16 then none
        else
          let addr := bits_to_int_lsb (bits.take 8)
          let cmd := bits_to_int_lsb ((bits.drop 8).take 8)
          some ⟨"JVC", format_bytes [addr], format_bytes [cmd], 16⟩

/-- Bit-collection loop of `_decode_sony`. -/
def sony_go : List Int → List Nat → List Nat
  | p :: s :: rest, bits =>
    if !match_us s 600 120 then bits
    else if match_us p 600 120 then sony_go rest (bits ++ [0])
    else if match_us p 1200 120 then sony_go rest (bits ++ [1])
    else bits
  | _, bits => bits

/-- `_decode_sony(samples)`. -/
def decode_sony (samples : List Int) : Option DecodedIR :=
  if samples.length < 2 then none
  else
    let pulse := samples.getD 0 0
    let space := samples.getD 1 0
    if !(match_us pulse 2400 200 && match_us space 600 120) then none
    else
      let bits := sony_go (samples.drop 2) []
      if !(bits.length == 12 || bits.length == 15 || bits.length == 20) then none
      else
        let command := bits_to_int_lsb (bits.take 7)
        let addressBits := bits.drop 7
        let address := format_int_bytes (bits_to_int_lsb addressBits) addressBits.length
        let protocol := if bits.length == 12 then "SIRC"
          else if bits.length == 15 then "SIRC15" else "SIRC20"
        some ⟨protocol, address, format_bytes [command], bits.length⟩

/-- Stable insertion sort, the exact sorted sequence Python `sorted` yields. -/
def insertSorted (x : Int) : List Int → List Int
  | [] => [x]
  | y :: ys => if x ≤ y then x :: y :: ys else y :: insertSorted x ys

def sortInts (l : List Int) : List Int := l.foldr insertSorted []

/-- Python `statistics.median` followed by truncation.  An odd count yields the
middle element; an even count yields `int((a + b) / 2)`, i.e. truncated toward
zero, matching Python's float midpoint (exact at `.5`) then `int()`. -/
def median_int (values : List Int) : Int :=
  let ordered := sortInts values
  let n := ordered.length
  if n == 0 then 0
  else if n % 2 == 1 then ordered.getD (n / 2) 0
  else Int.tdiv (ordered.getD (n / 2 - 1) 0 + ordered.getD (n / 2) 0) 2

/-- `_estimate_unit(samples, expected_unit)`. -/
def estimate_unit (samples : List Int) (expected_unit : Int) : Int :=
  let candidates := samples.filter (fun v => decide (200 ≤ v) && decide (v ≤ 2000))
  if candidates = [] then expected_unit else median_int candidates

/-- Python `round(duration / unit)`: exact rational division with half-even
rounding (`unit` is positive in every call site). -/
def round_div (duration unit : Int) : Int :=
  if unit = 0 then 0
  else
    let f := Int.fdiv duration unit
    let r := duration - f * unit
    if 2 * r < |unit| then f
    else if 2 * r > |unit| then f + 1
    else if f % 2 == 0 then f else f + 1

/-- `_timings_to_levels(samples, expected_unit)`. -/
def timings_to_levels (samples : List Int) (expected_unit : Int) : List Int :=
  let unit := estimate_unit samples expected_unit
  (samples.enum).foldl (fun levels p =>
    let level : Int := if p.1 % 2 == 0 then 1 else 0
    let count := max 1 (round_div p.2 unit)
    let count := if count > 4 then 4 else count
    levels ++ List.replicate count.toNat level) []

/-- Pair loop of `_levels_to_bits`; `none` models the early `return []` taken
when a pair of equal levels is met. -/
def levels_pairs_go : List Int → Option (List Nat)
  | first :: second :: rest =>
    if first == second then none
    else (levels_pairs_go rest).map
      (fun bs => (if first == 1 && second == 0 then (1 : Nat) else 0) :: bs)
  | _ => some []

/-- `_levels_to_bits(levels)`. -/
def levels_to_bits (levels : List Int) : List Nat := (levels_pairs_go levels).getD []

/-- One iteration of the `for offset in (0, 1)` loop of `_decode_rc5`. -/
def rc5_try (levels : List Int) (offset : Nat) : Option DecodedIR :=
  let bits := levels_to_bits (levels.drop offset)
  if bits.length < 14 then none
  else if !(bits.getD 0 0 == 1) || !(bits.getD 1 0 == 1) then none
  else
    let address := bits_to_int_msb ((bits.drop 3).take 5)
    let command := bits_to_int_msb ((bits.drop 8).take 6)
    let command := if bits.getD 1 0 == 0 then command ||| 0x40 else command
    some ⟨"RC5", format_bytes [address], format_bytes [command], 14⟩

/-- `_decode_rc5(samples)`. -/
def decode_rc5 (samples : List Int) : Option DecodedIR :=
  let levels := timings_to_levels samples 889
  if levels = [] then none
  else
    match rc5_try levels 0 with
    | some d => some d
    | none => rc5_try levels 1

/-- `_decode_rc6(samples)`. -/
def decode_rc6 (samples : List Int) : Option DecodedIR :=
  if samples.length < 4 then none
  else
    let pulse := samples.getD 0 0
    let space := samples.getD 1 0
    if !(match_us pulse 2666 200 && match_us space 889 120) then none
    else
      let levels := timings_to_levels (samples.drop 2) 444
      if levels = [] || levels.length < 40 then none
      else
        let bits := levels_to_bits levels
        if bits.length < 20 then none
        else if bits.getD 0 0 != 1 then none
        else
          let mode := bits_to_int_msb ((bits.drop 1).take 3)
          if mode != 0 then none
          else
            let toggle := bits.getD 4 0
            let address := bits_to_int_msb ((bits.drop 5).take 8)
            let command := bits_to_int_msb ((bits.drop 13).take 8)
            let command := if toggle != 0 then command ||| 0x100 else command
            some ⟨"RC6", format_bytes [address], format_bytes [command &&& 0xFF], 20⟩

/-- `_decode_kaseikyo(samples)`; tolerances 0.3 as exact fractions. -/
def decode_kaseikyo (samples : List Int) : Option DecodedIR :=
  if samples.length < 2 then none
  else
    let pulse := samples.getD 0 0
    let space := samples.getD 1 0
    if !(approx pulse 3500 3 10 && approx space 1750 3 10) then none
    else
      match decode_pulse_distance (samples.drop 2) 432 432 1296 48 120 with
      | none => none
      | some bits =>
        if bits = [] || bits.length < 48 then none
        else
          let values := ([0, 8, 16, 24, 32, 40].map fun i => bits_to_int_lsb ((bits.drop i).take 8))
          some ⟨"Kaseikyo", format_bytes (values.take 2), format_bytes ((values.drop 2).take 2), 48⟩

/-- Symbol loop of `_decode_rcmm`; space tolerances 0.4 / 0.35 as fractions. -/
def rcmm_go : List Int → List Nat → List Nat
  | p :: s :: rest, symbols =>
    if !approx p 416 1 2 then symbols
    else if approx s 444 2 5 then rcmm_go rest (symbols ++ [0])
    else if approx s 889 7 20 then rcmm_go rest (symbols ++ [1])
    else if approx s 1333 7 20 then rcmm_go rest (symbols ++ [2])
    else if approx s 1778 7 20 then rcmm_go rest (symbols ++ [3])
    else symbols
  | _, symbols => symbols

/-- `_decode_rcmm(samples)`; header tolerances 0.4 and 0.5. -/
def decode_rcmm (samples : List Int) : Option DecodedIR :=
  if samples.length < 4 then none
  else
    let pulse := samples.getD 0 0
    let space := samples.getD 1 0
    if !(approx pulse 416 2 5 && approx space 278 1 2) then none
    else
      let symbols := rcmm_go (samples.drop 2) []
      if symbols.length < 6 then none
      else
        let bits := symbols.flatMap (fun symbol => [(symbol >>> 1) &&& 1, symbol &&& 1])
        if bits.length < 16 then none
        else
          let address := bits_to_int_msb (bits.take 8)
          let command := bits_to_int_msb ((bits.drop 8).take 8)
          some ⟨"RCMM", format_bytes [address], format_bytes [command], bits.length⟩

/-- The `TypeError` raised inside `_decode_sharp`. -/
def sharpTypeError : String :=
  "TypeError: _decode_pulse_distance missing required positional argument tolerance_us"

/-- `_decode_sharp(samples)`: after the header check the code calls
`_decode_pulse_distance(samples[2:], 320, 320, 680, 15)` with five positional
arguments, omitting the required sixth parameter `tolerance_us`; executing
that call raises `TypeError`.  The embedding surfaces the exception as
`Except.error`; the remainder of the function body is unreachable. -/
def decode_sharp (samples : List Int) : Except String (Option DecodedIR) :=
  if samples.length < 2 then .ok none
  else
    let pulse := samples.getD 0 0
    let space := samples.getD 1 0
    if !(approx pulse 320 1 2 && approx space 1600 2 5) then .ok none
    else .error sharpTypeError

/-- `_decode_sanyo(samples)`. -/
def decode_sanyo (samples : List Int) : Option DecodedIR :=
  if samples.length < 2 then none
  else
    let pulse := samples.getD 0 0
    let space := samples.getD 1 0
    if !(match_us pulse 9000 200 && match_us space 4500 200) then none
    else
      match decode_pulse_distance (samples.drop 2) 560 560 1690 42 120 with
      | none => none
      | some bits =>
        if bits = [] || bits.length < 42 then none
        else
          let values := ([0, 8, 16, 24, 32].map fun i => bits_to_int_lsb ((bits.drop i).take 8))
          some ⟨"Sanyo", format_bytes (values.take 2), format_bytes ((values.drop 2).take 2), 42⟩

/-- `_decode_xmp(samples)`; tolerances 0.3 and 0.35. -/
def decode_xmp (samples : List Int) : Option DecodedIR :=
  if samples.length < 2 then none
  else
    let pulse := samples.getD 0 0
    let space := samples.getD 1 0
    if !(approx pulse 2090 3 10 && approx space 780 7 20) then none
    else
      match decode_pulse_distance (samples.drop 2) 780 390 1170 32 120 with
      | none => none
      | some bits =>
        if bits = [] || bits.length < 32 then none
        else
          let values := ([0, 8, 16, 24].map fun i => bits_to_int_lsb ((bits.drop i).take 8))
          some ⟨"XMP", format_bytes (values.take 2), format_bytes ((values.drop 2).take 2), 32⟩

/-- `decode_raw_timings(samples)`: normalize, require at least 6 timings, then
try the decoder bank in order; `_decode_sharp` may raise, which propagates. -/
def decode_raw_timings (samples : List Int) : Except String (Option DecodedIR) :=
  let timings := normalize_timings samples
  if timings.length < 6 then .ok none
  else
    match decode_nec timings with
    | some d => .ok (some d)
    | none =>
    match decode_nec_ext timings with
    | some d => .ok (some d)
    | none =>
    match decode_samsung timings with
    | some d => .ok (some d)
    | none =>
    match decode_jvc timings with
    | some d => .ok (some d)
    | none =>
    match decode_sony timings with
    | some d => .ok (some d)
    | none =>
    match decode_rc5 timings with
    | some d => .ok (some d)
    | none =>
    match decode_rc6 timings with
    | some d => .ok (some d)
    | none =>
    match decode_kaseikyo timings with
    | some d => .ok (some d)
    | none =>
    match decode_rcmm timings with
    | some d => .ok (some d)
    | none =>
    match decode_sharp timings with
    | .error e => .error e
    | .ok (some d) => .ok (some d)
    | .ok none =>
    match decode_sanyo timings with
    | some d => .ok (some d)
    | none =>
    match decode_xmp timings with
    | some d => .ok (some d)
    | none => .ok none

end IR

namespace IR

/-! ### Helper lemmas about `_normalize_timings` -/

theorem mem_dropLast_mem {α : Type} {a : α} {l : List α} (h : a ∈ l.dropLast) : a ∈ l :=
  List.Sublist.subset (List.dropLast_sublist l) h

theorem evenTrim_even {α : Type} (l : List α) :
    Even ((if l.length % 2 == 1 then l.dropLast else l).length) := by
  split
  · next h =>
    have h1 : l.length % 2 = 1 := by simpa using h
    rw [List.length_dropLast, Nat.even_iff]
    omega
  · next h =>
    have h1 : ¬ l.length % 2 = 1 := by simpa using h
    rw [Nat.even_iff]
    omega

theorem mem_evenTrim {α : Type} {a : α} {l : List α}
    (h : a ∈ (if l.length % 2 == 1 then l.dropLast else l)) : a ∈ l := by
  split at h
  · exact mem_dropLast_mem h
  · exact h

/-- Every element produced by `_normalize_timings` is strictly positive. -/
theorem mem_normalize_pos {x : List Int} {v : Int} (hv : v ∈ normalize_timings x) : 0 < v := by
  unfold normalize_timings at hv
  cases hfilter : x.filter (fun v => v != 0) with
  | nil => rw [hfilter] at hv; simp at hv
  | cons first rest =>
    rw [hfilter] at hv
    simp only at hv
    have hne : ∀ w ∈ first :: rest, w ≠ 0 := by
      intro w hw
      rw [← hfilter] at hw
      have := (List.mem_filter.mp hw).2
      simpa using this
    generalize hsg : (if first < 0 then rest else first :: rest) = signed at hv
    have hsub : ∀ w ∈ signed, w ≠ 0 := by
      intro w hw
      rw [← hsg] at hw
      apply hne
      split at hw
      · exact List.mem_cons_of_mem _ hw
      · exact hw
    have habs : ∀ w ∈ signed.map (fun v => |v|), 0 < w := by
      intro w hw
      obtain ⟨u, hu, rfl⟩ := List.mem_map.mp hw
      exact abs_pos.mpr (hsub u hu)
    generalize hB : signed.map (fun v => |v|) = B at hv habs
    generalize hA : (if B.length % 2 == 1 then B.dropLast else B) = A at hv
    have hAmem : ∀ w ∈ A, 0 < w := by
      intro w hw
      rw [← hA] at hw
      exact habs _ (mem_evenTrim hw)
    split at hv
    · split at hv
      · exact hAmem _ (mem_dropLast_mem (mem_dropLast_mem hv))
      · exact hAmem _ (mem_dropLast_mem hv)
    · exact hAmem _ hv

/-- The output of `_normalize_timings` always has even length. -/
theorem normalize_length_even (x : List Int) : Even (normalize_timings x).length := by
  unfold normalize_timings
  cases hfilter : x.filter (fun v => v != 0) with
  | nil => simp
  | cons first rest =>
    simp only
    generalize (if first < 0 then rest else first :: rest).map (fun v => |v|) = B
    generalize hA : (if B.length % 2 == 1 then B.dropLast else B) = A
    split
    · exact evenTrim_even _
    · rw [← hA]; exact evenTrim_even _

theorem head_or_nil_dropLast {α : Type} (l : List α) :
    l.dropLast = [] ∨ l.dropLast.head? = l.head? := by
  match l with
  | [] => exact Or.inl rfl
  | [a] => exact Or.inl rfl
  | a :: b :: t => right; simp

theorem nil_or_head_dropLast {α : Type} {a : α} {l : List α} (h : l = [] ∨ l.head? = some a) :
    l.dropLast = [] ∨ l.dropLast.head? = some a := by
  rcases h with rfl | h
  · exact Or.inl rfl
  · rcases head_or_nil_dropLast l with h2 | h2
    · exact Or.inl h2
    · right; rw [h2, h]

/-! ### Claims C1, C4, C5 -/

/-- C1 (code bug): `decode([])` and `decode([9000])` do return the absent
result, but `decode_raw_timings` is not exception-free: any input whose
normalized timings reach `_decode_sharp` with a matching Sharp header — e.g.
`[320, 1600, 320, 320, 320, 320]` — raises `TypeError`, because
`_decode_sharp` calls `_decode_pulse_distance` with five of its six required
positional arguments. -/
theorem c1_decode_no_raise_violation :
    decode_raw_timings [] = .ok none ∧ decode_raw_timings [9000] = .ok none ∧
      decode_raw_timings [320, 1600, 320, 320, 320, 320] = .error sharpTypeError :=
  ⟨rfl, rfl, rfl⟩

/-- C4 counterexample: `normalize([1, 20000, 16000, 20000]) = [1, 20000]`,
whose second application trims the retained trailing gap again, so
`normalize ∘ normalize ≠ normalize` at this input. -/
theorem c4_counterexample :
    normalize_timings (normalize_timings [1, 20000, 16000, 20000]) ≠
      normalize_timings [1, 20000, 16000, 20000] := by decide

/-- C4 (amended): `_normalize_timings` is idempotent on every input whose
normalized output is empty or ends with a value of at most 15000µs; when the
single trailing-gap trim leaves another value above 15000µs at the end, a
second application trims again. -/
theorem c4_normalize_idempotent_on_trimmed (x : List Int)
    (h : ∀ v, (normalize_timings x).getLast? = some v → v ≤ 15000) :
    normalize_timings (normalize_timings x) = normalize_timings x := by
  have hpos : ∀ v ∈ normalize_timings x, 0 < v := fun v hv => mem_normalize_pos hv
  have heven := normalize_length_even x
  obtain ⟨y, hy⟩ : ∃ y, normalize_timings x = y := ⟨_, rfl⟩
  rw [hy] at hpos heven h ⊢
  cases y with
  | nil => rfl
  | cons a t =>
    have ha : 0 < a := hpos a (List.mem_cons_self _ _)
    have hfil : (a :: t).filter (fun v => v != 0) = a :: t := by
      rw [List.filter_eq_self]
      intro w hw
      simpa using (hpos w hw).ne'
    unfold normalize_timings
    rw [hfil]
    simp only
    rw [if_neg (not_lt.mpr ha.le)]
    have hmap : (a :: t).map (fun v => |v|) = a :: t := by
      have habs : ∀ v ∈ a :: t, |v| = v := fun v hv => abs_of_pos (hpos v hv)
      calc (a :: t).map (fun v => |v|) = (a :: t).map id := List.map_congr_left habs
        _ = a :: t := List.map_id _
    rw [hmap]
    have hlen : (a :: t).length % 2 = 0 := Nat.even_iff.mp heven
    have hTrim : (if ((a :: t).length % 2 == 1) = true then (a :: t).dropLast else (a :: t)) =
        a :: t := if_neg (by simp only [beq_iff_eq, List.length_cons] at hlen ⊢; omega)
    rw [hTrim]
    have hlast : (a :: t).getLastD 0 ≤ 15000 := by
      have hne : a :: t ≠ [] := by simp
      have h1 : (a :: t).getLast? = some ((a :: t).getLast hne) := List.getLast?_eq_getLast _ hne
      have h2 := h _ h1
      rw [List.getLastD_eq_getLast?, h1]
      simpa using h2
    rw [if_neg (not_lt.mpr hlast)]

/-- C4 witness: the amended idempotence applied at `[100, 200]`. -/
theorem c4_witness :
    normalize_timings (normalize_timings [100, 200]) = normalize_timings [100, 200] :=
  c4_normalize_idempotent_on_trimmed [100, 200] (by
    intro v hv
    have h : normalize_timings [100, 200] = [100, 200] := by decide
    rw [h] at hv
    simp at hv
    omega)

/-- C5 counterexample: for the all-space input `[-1, -2, -3]` (no positive
mark at all) `_normalize_timings` returns the non-empty `[2, 3]`, whose first
element is the absolute value of the space `-2`: the output neither starts
with a mark nor is empty in the absence of usable marks — only the first
leading space is dropped. -/
theorem c5_counterexample :
    normalize_timings [-1, -2, -3] = [2, 3] ∧ ∀ v ∈ ([-1, -2, -3] : List Int), ¬ 0 < v := by
  decide

/-- C5 (amended): `_normalize_timings` always returns, with even length; and
whenever the first nonzero entry of the input is positive (a mark), the output
is empty or starts with exactly that mark.  (When the input starts with two or
more spaces only the first is dropped, so the output can start with a space's
absolute value, and an all-space input can produce non-empty output.) -/
theorem c5_normalize_shape (x : List Int) :
    Even (normalize_timings x).length ∧
      ∀ first rest, x.filter (fun v => v != 0) = first :: rest → 0 < first →
        normalize_timings x = [] ∨ (normalize_timings x).head? = some first := by
  refine ⟨normalize_length_even x, ?_⟩
  intro first rest hfilter hfirst
  unfold normalize_timings
  rw [hfilter]
  simp only
  rw [if_neg (not_lt.mpr hfirst.le)]
  rw [List.map_cons, abs_of_pos hfirst]
  generalize (rest.map (fun v => |v|)) = tl
  generalize hA : (if ((first :: tl).length % 2 == 1) = true
      then (first :: tl).dropLast else (first :: tl)) = A
  have hAbase : A = [] ∨ A.head? = some first := by
    rw [← hA]
    split
    · exact nil_or_head_dropLast (Or.inr rfl)
    · exact Or.inr rfl
  split
  · split
    · exact nil_or_head_dropLast (nil_or_head_dropLast hAbase)
    · exact nil_or_head_dropLast hAbase
  · exact hAbase

/-- C5 witness: the amended shape property applied at `[500, 600, 700, 800]`. -/
theorem c5_witness :
    Even (normalize_timings [500, 600, 700, 800]).length ∧
      (normalize_timings [500, 600, 700, 800]).head? = some 500 := by
  have h := c5_normalize_shape [500, 600, 700, 800]
  refine ⟨h.1, ?_⟩
  have h2 := h.2 500 [600, 700, 800] (by decide) (by decide)
  exact h2.resolve_left (by decide)

end IR

namespace IR

/-! ### Claims C7 and C10 -/

/-- Pulse-distance pair for one NEC bit: pulse 560, space 560 (bit 0) or 1690 (bit 1). -/
def necBit (b : Nat) : List Int := [560, if b == 1 then 1690 else 560]

/-- NEC literal frame: header 9000/4500 followed by the 32 LSB-first bits of
`addr = 0x01`, `~addr = 0xFE`, `cmd = 0x02`, `~cmd = 0xFD`. -/
def necLiteralTimings : List Int :=
  [9000, 4500] ++ (([1,0,0,0,0,0,0,0, 0,1,1,1,1,1,1,1, 0,1,0,0,0,0,0,0, 1,0,1,1,1,1,1,1] :
    List Nat).flatMap necBit)

theorem le_one_lor (a b : Nat) (hb : b ≤ 1) : 2 * a ||| b = 2 * a + b := by
  rcases Nat.le_one_iff_eq_zero_or_eq_one.mp hb with rfl | rfl
  · simp
  · have h := Nat.lor_bit false a true 0
    simpa [Nat.bit] using h

theorem msb_fold_lt (l : List Nat) :
    ∀ a : Nat, l.foldl (fun total bit => (total <<< 1) ||| (if bit != 0 then 1 else 0)) a <
      (a + 1) * 2 ^ l.length := by
  induction l with
  | nil => intro a; simp
  | cons b t ih =>
    intro a
    have hb : (if b != 0 then 1 else 0 : Nat) ≤ 1 := by split <;> omega
    have hshift : a <<< 1 = 2 * a := by rw [Nat.shiftLeft_eq]; ring
    have hstep : (a <<< 1) ||| (if b != 0 then 1 else 0) = 2 * a + (if b != 0 then 1 else 0) := by
      rw [hshift]; exact le_one_lor a _ hb
    have h1 := ih ((a <<< 1) ||| (if b != 0 then 1 else 0))
    calc List.foldl _ _ (b :: t) = _ := rfl
      _ < (((a <<< 1) ||| (if b != 0 then 1 else 0)) + 1) * 2 ^ t.length := h1
      _ ≤ (2 * a + 1 + 1) * 2 ^ t.length := by
          refine Nat.mul_le_mul_right _ ?_
          rw [hstep]
          omega
      _ = (a + 1) * 2 ^ (b :: t).length := by
          rw [List.length_cons, pow_succ]
          ring

/-- `_bits_to_int(bits, lsb_first=False)` is bounded by `2 ^ len(bits)`. -/
theorem bits_to_int_msb_lt (l : List Nat) : bits_to_int_msb l < 2 ^ l.length := by
  have h := msb_fold_lt l 0
  simpa [bits_to_int_msb] using h

theorem rc5_try_command_bound (levels : List Int) (offset : Nat) (d : DecodedIR)
    (h : rc5_try levels offset = some d) :
    ∃ c, c ≤ 0x3F ∧ d.command = format_bytes [c] := by
  unfold rc5_try at h
  simp only at h
  split at h
  · exact absurd h (by simp)
  · split at h
    · exact absurd h (by simp)
    · next hcond =>
      have h1 : (levels_to_bits (levels.drop offset)).getD 1 0 = 1 := by
        simp only [Bool.or_eq_true, Bool.not_eq_true', beq_eq_false_iff_ne, ne_eq,
          not_or, not_not, beq_iff_eq] at hcond
        exact hcond.2
      rw [h1] at h
      simp only [show ((1 : Nat) == 0) = false from rfl, Bool.false_eq_true, if_false] at h
      cases h
      refine ⟨bits_to_int_msb (((levels_to_bits (levels.drop offset)).drop 8).take 6), ?_, rfl⟩
      have hlt := bits_to_int_msb_lt (((levels_to_bits (levels.drop offset)).drop 8).take 6)
      have hlen : (((levels_to_bits (levels.drop offset)).drop 8).take 6).length ≤ 6 :=
        List.length_take_le _ _
      have hpow : 2 ^ (((levels_to_bits (levels.drop offset)).drop 8).take 6).length ≤ 2 ^ 6 :=
        Nat.pow_le_pow_right (by omega) hlen
      omega

/-- C10: every successful result of the RC5 decoder carries a command byte of
value at most `0x3F`: the decoder requires both leading start bits to equal 1,
so the branch that would add `0x40` from the second start bit never runs, and
the command is assembled from only 6 bits. -/
theorem c10_rc5_command_bound (samples : List Int) (d : DecodedIR)
    (h : decode_rc5 samples = some d) : ∃ c, c ≤ 0x3F ∧ d.command = format_bytes [c] := by
  unfold decode_rc5 at h
  simp only at h
  split at h
  · exact absurd h (by simp)
  · split at h
    · next d0 heq =>
      cases h
      exact rc5_try_command_bound _ _ _ heq
    · next heq =>
      exact rc5_try_command_bound _ _ _ h

/-- C10 witness: the RC5 bound applied to a concrete 14-bit all-ones frame. -/
theorem c10_witness :
    ∃ d c, decode_rc5 (List.replicate 28 (889 : Int)) = some d ∧
      c ≤ 0x3F ∧ d.command = format_bytes [c] := by
  have h : decode_rc5 (List.replicate 28 (889 : Int)) = some ⟨"RC5", "1F", "3F", 14⟩ := by decide
  obtain ⟨c, hc, hcmd⟩ := c10_rc5_command_bound _ _ h
  exact ⟨_, c, h, hc, hcmd⟩

end IR

namespace IR

/-- A successful `_decode_nec` result always comes from a 32-bit pulse-distance
frame whose second and fourth bytes are the byte-complements of the first and
third; the address and command are the first and third bytes. -/
theorem decode_nec_complement (samples : List Int) (d : DecodedIR)
    (h : decode_nec samples = some d) :
    ∃ bits, decode_pulse_distance (samples.drop 2) 560 560 1690 32 120 = some bits ∧
      d.protocol = "NEC" ∧ d.bits = 32 ∧
      (bits_to_int_lsb ((bits.drop 0).take 8) ^^^ 0xFF) = bits_to_int_lsb ((bits.drop 8).take 8) ∧
      (bits_to_int_lsb ((bits.drop 16).take 8) ^^^ 0xFF) =
        bits_to_int_lsb ((bits.drop 24).take 8) ∧
      d.address = format_bytes [bits_to_int_lsb ((bits.drop 0).take 8)] ∧
      d.command = format_bytes [bits_to_int_lsb ((bits.drop 16).take 8)] := by
  unfold decode_nec at h
  simp only at h
  split at h
  · exact absurd h (by simp)
  · split at h
    · exact absurd h (by simp)
    · split at h
      · exact absurd h (by simp)
      · next bits heq =>
        split at h
        · exact absurd h (by simp)
        · split at h
          · next hcond =>
            cases h
            simp only [List.map_cons, List.map_nil, List.getD_cons_zero, List.getD_cons_succ,
              Bool.and_eq_true, beq_iff_eq] at hcond
            exact ⟨bits, heq, rfl, rfl, hcond.1, hcond.2, rfl, rfl⟩
          · exact absurd h (by simp)

/-- C7: the NEC literal frame `[9000, 4500] ++ <32 pulse-distance bit pairs
encoding 0x01 0xFE 0x02 0xFD>` decodes to `NEC / address 01 / command 02 /
32 bits`; and every frame the NEC decoder accepts satisfies the
byte-complement check between bytes 0/1 and bytes 2/3. -/
theorem c7_nec_literal_and_complement :
    decode_raw_timings necLiteralTimings = .ok (some ⟨"NEC", "01", "02", 32⟩) ∧
      ∀ samples d, decode_nec samples = some d →
        ∃ bits, decode_pulse_distance (samples.drop 2) 560 560 1690 32 120 = some bits ∧
          d.protocol = "NEC" ∧ d.bits = 32 ∧
          (bits_to_int_lsb ((bits.drop 0).take 8) ^^^ 0xFF) =
            bits_to_int_lsb ((bits.drop 8).take 8) ∧
          (bits_to_int_lsb ((bits.drop 16).take 8) ^^^ 0xFF) =
            bits_to_int_lsb ((bits.drop 24).take 8) ∧
          d.address = format_bytes [bits_to_int_lsb ((bits.drop 0).take 8)] ∧
          d.command = format_bytes [bits_to_int_lsb ((bits.drop 16).take 8)] :=
  ⟨rfl, decode_nec_complement⟩

/-- C7 witness: the complement invariant applied to the literal NEC frame. -/
theorem c7_witness :
    ∃ bits, decode_pulse_distance (necLiteralTimings.drop 2) 560 560 1690 32 120 = some bits ∧
      (DecodedIR.mk "NEC" "01" "02" 32).protocol = "NEC" ∧
      (DecodedIR.mk "NEC" "01" "02" 32).bits = 32 ∧
      (bits_to_int_lsb ((bits.drop 0).take 8) ^^^ 0xFF) =
        bits_to_int_lsb ((bits.drop 8).take 8) ∧
      (bits_to_int_lsb ((bits.drop 16).take 8) ^^^ 0xFF) =
        bits_to_int_lsb ((bits.drop 24).take 8) ∧
      (DecodedIR.mk "NEC" "01" "02" 32).address =
        format_bytes [bits_to_int_lsb ((bits.drop 0).take 8)] ∧
      (DecodedIR.mk "NEC" "01" "02" 32).command =
        format_bytes [bits_to_int_lsb ((bits.drop 16).take 8)] := by
  have h : decode_nec necLiteralTimings = some ⟨"NEC", "01", "02", 32⟩ := by decide
  exact c7_nec_literal_and_complement.2 necLiteralTimings _ h

end IR

/-!
Embedding of the pure helpers of `LircClient` (`src/ir/lirc_client.py`):
burst segmentation, protocol-name normalization, and the scancode codec.
-/

namespace Lirc

/-- `_split_bursts` accumulator loop: a value over 1,000,000µs closes a
non-empty accumulator (after an even-length trim); otherwise it is appended. -/
def split_go : List Int → List Int → List (List Int)
  | [], current =>
    if current ≠ [] then
      let c := if current.length % 2 == 1 then current.dropLast else current
      if c ≠ [] then [c] else []
    else []
  | v :: rest, current =>
    if v > 1000000 ∧ current ≠ [] then
      let c := if current.length % 2 == 1 then current.dropLast else current
      (if c ≠ [] then [c] else []) ++ split_go rest []
    else split_go rest (current ++ [v])

/-- `_split_bursts(data)`. -/
def split_bursts (data : List Int) : List (List Int) :=
  if data = [] then [] else split_go data []

/-- `_PROTOCOL_ALIASES`. -/
def PROTOCOL_ALIASES : List (String × String) :=
  [("kaseikyo", "kaseikyo"), ("nec", "nec"), ("nec42", "nec"), ("necext", "necx"),
   ("nec_ext", "necx"), ("nec-x", "necx"), ("pioneer", "pioneer"), ("rc5", "rc5"),
   ("rc5x", "rc5x"), ("rc6", "rc6"), ("rca", "rca"), ("samsung32", "samsung32"),
   ("sirc", "sony"), ("sirc15", "sony15"), ("sirc20", "sony20")]

/-- Python `str.strip()` default-whitespace set (ASCII part). -/
def isPySpace (c : Char) : Bool :=
  c == ' ' || c == '\t' || c == '\n' || c == '\r' || c == '\x0b' || c == '\x0c'

/-- Python `str.strip()` on a character list. -/
def pyStrip (cs : List Char) : List Char :=
  ((cs.dropWhile isPySpace).reverse.dropWhile isPySpace).reverse

/-- `_normalize_protocol(protocol)`: strip, lower-case, then alias lookup with
pass-through for unknown names. -/
def normalize_protocol (protocol : String) : String :=
  let normalized : String := ⟨(pyStrip protocol.data).map Char.toLower⟩
  (PROTOCOL_ALIASES.lookup normalized).getD normalized

/-- Regex class `[0-9a-fA-F]`. -/
def isHexChar (c : Char) : Bool :=
  decide ((48 ≤ c.toNat ∧ c.toNat ≤ 57) ∨ (97 ≤ c.toNat ∧ c.toNat ≤ 102) ∨
    (65 ≤ c.toNat ∧ c.toNat ≤ 70))

/-- Value of one hex digit character. -/
def hexVal (c : Char) : Nat :=
  if 48 ≤ c.toNat ∧ c.toNat ≤ 57 then c.toNat - 48
  else if 97 ≤ c.toNat ∧ c.toNat ≤ 102 then c.toNat - 87
  else if 65 ≤ c.toNat ∧ c.toNat ≤ 70 then c.toNat - 55
  else 0

/-- Non-overlapping scan of `re.findall(r"[0-9a-fA-F]{2}", value)` with each
two-digit token converted by `int(token, 16)`. -/
def parseHexPairs : List Char → List Nat
  | c1 :: c2 :: rest =>
    if isHexChar c1 && isHexChar c2 then (hexVal c1 * 16 + hexVal c2) :: parseHexPairs rest
    else parseHexPairs (c2 :: rest)
  | _ => []

/-- `_parse_hex_bytes(value)`. -/
def parse_hex_bytes (value : String) : List Nat := parseHexPairs value.data

/-- Trailing-zero trim of `_compact_bytes`, on the reversed byte list. -/
def compactAux : List Nat → List Nat
  | [] => []
  | [x] => [x]
  | x :: y :: rest => if x = 0 then compactAux (y :: rest) else x :: y :: rest

/-- `_compact_bytes(values)`: drop trailing zero bytes but keep at least one. -/
def compact_bytes (values : List Nat) : List Nat :=
  if values = [] then [] else (compactAux values.reverse).reverse

/-- `_bytes_to_int(values)`. -/
def bytes_to_int (values : List Nat) : Nat :=
  values.foldl (fun total value => (total <<< 8) ||| value) 0

/-- Python `int.bit_length()` (fuelled binary length). -/
def pyBitLengthAux : Nat → Nat → Nat
  | 0, _ => 0
  | fuel + 1, n => if n = 0 then 0 else pyBitLengthAux fuel (n / 2) + 1

def pyBitLength (n : Nat) : Nat := pyBitLengthAux (n + 1) n

/-- `_int_to_bytes(value, length)` with an explicit length. -/
def int_to_bytes_len (value : Nat) (length : Nat) : List Nat :=
  (List.range length).map fun idx => (value >>> (8 * (length - 1 - idx))) &&& 0xFF

/-- `_int_to_bytes(value)` without a length: big-endian bytes over
`max(1, (bit_length + 7) // 8)` bytes. -/
def int_to_bytes (value : Nat) : List Nat :=
  int_to_bytes_len value (max 1 ((pyBitLength value + 7) / 8))

/-- `LircClient._format_bytes(values)`. -/
def format_bytes (values : List Nat) : String :=
  if values = [] then "00" else String.intercalate " " (values.map IR.format02X)

/-- `_format_int(value)`. -/
def format_int (value : Nat) : String := format_bytes (int_to_bytes value)

/-- Python `f"0x{scancode:0{width}x}"`: lowercase hex padded to `width`. -/
def formatHexPad (width n : Nat) : String := ⟨IR.leftPad '0' width (IR.natHexChars n false)⟩

/-- Value of a maximal hex-digit run. -/
def hexRunVal (cs : List Char) : Nat :=
  (cs.takeWhile isHexChar).foldl (fun acc c => acc * 16 + hexVal c) 0

/-- `re.search(r"(?:0x)?([0-9a-fA-F]+)", value)` followed by `int(group, 16)`:
at the first position where the pattern matches, an `0x` prefix directly
followed by a hex digit is skipped and the maximal hex run is taken; a lone
`0` before a non-hex `x`-suffix matches as the single digit `0`. -/
def psvAux : List Char → Option Nat
  | [] => none
  | '0' :: 'x' :: c :: rest => if isHexChar c then some (hexRunVal (c :: rest)) else some 0
  | ['0', 'x'] => some 0
  | c :: rest => if isHexChar c then some (hexRunVal (c :: rest)) else psvAux rest

/-- `_parse_scancode_value(value)`. -/
def parse_scancode_value (value : String) : Option Nat := psvAux value.data

/-- `_build_scancode(protocol, address, command)`: `None` models the Python
`None` return for empty parsed hex; every other branch packs a scancode. -/
def build_scancode (protocol address command : String) : Option String :=
  let addr_bytes := compact_bytes (parse_hex_bytes address)
  let cmd_bytes := compact_bytes (parse_hex_bytes command)
  if addr_bytes = [] ∨ cmd_bytes = [] then none
  else
    let protocol_key := normalize_protocol protocol
    if protocol_key = "nec" ∧ 1 ≤ addr_bytes.length ∧ 1 ≤ cmd_bytes.length then
      let addr := addr_bytes.getD 0 0
      let cmd := cmd_bytes.getD 0 0
      let scancode := (addr <<< 24) ||| ((addr ^^^ 0xFF) <<< 16) ||| (cmd <<< 8) ||| (cmd ^^^ 0xFF)
      some ("0x" ++ formatHexPad 8 scancode)
    else if protocol_key = "necext" ∨ protocol_key = "nec_ext" ∨ protocol_key = "necx" then
      let addr := bytes_to_int (addr_bytes.take 2)
      let cmd := bytes_to_int (cmd_bytes.take 2)
      let scancode := (addr <<< 16) ||| cmd
      some ("0x" ++ formatHexPad 8 scancode)
    else
      let addr := bytes_to_int (addr_bytes.take 2)
      let cmd := bytes_to_int (cmd_bytes.take 2)
      let bytes_used := (addr_bytes.take 2).length + (cmd_bytes.take 2).length
      let scancode := (addr <<< (8 * (cmd_bytes.take 2).length)) ||| cmd
      some ("0x" ++ formatHexPad (max 1 bytes_used * 2) scancode)

/-- `decode_scancode(protocol, scancode)`. -/
def decode_scancode (protocol scancode : String) : String × String :=
  match parse_scancode_value scancode with
  | none => ("00", "00")
  | some value =>
    let normalized := normalize_protocol protocol
    if normalized = "nec" then
      let bytes_ := int_to_bytes_len value 4
      (format_bytes (bytes_.take 1), format_bytes ((bytes_.drop 2).take 1))
    else if normalized = "necx" ∨ normalized = "nec_ext" ∨ normalized = "necext" then
      let bytes_ := int_to_bytes_len value 4
      (format_bytes (bytes_.take 2), format_bytes ((bytes_.drop 2).take 2))
    else if normalized = "sony" ∨ normalized = "sony15" ∨ normalized = "sony20" then
      (format_int (value >>> 7), format_int (value &&& 0x7F))
    else ("00", format_int value)

end Lirc

namespace Lirc

/-! ### Claim C3 -/

/-- C3 counterexample: a marker value over 1,000,000µs arriving while the
accumulator is empty is *kept* (the guard `value > 1000000 and current` fails),
so it appears in a returned burst. -/
theorem c3_counterexample :
    split_bursts [2000000, 100] = [[2000000, 100]] ∧
      ∃ b ∈ split_bursts [2000000, 100], (2000000 : Int) ∈ b ∧ (2000000 : Int) > 1000000 := by
  decide

theorem mem_tail_dropLast {α : Type} {v : α} {l : List α} (h : v ∈ l.dropLast.tail) :
    v ∈ l.tail := by
  cases l with
  | nil => simp at h
  | cons a t =>
    cases t with
    | nil => simp at h
    | cons b u =>
      simp only [List.dropLast_cons₂, List.tail_cons] at h ⊢
      exact IR.mem_dropLast_mem h

/-- Closing the accumulator `current` yields only even-length bursts whose
tail elements inherit the accumulator-tail bound. -/
theorem flush_shape (current burst : List Int) (hcur : ∀ v ∈ current.tail, v ≤ 1000000)
    (hb : burst ∈ (if (if (current.length % 2 == 1) = true then current.dropLast else current) ≠ []
      then [if (current.length % 2 == 1) = true then current.dropLast else current] else
        ([] : List (List Int)))) :
    Even burst.length ∧ ∀ v ∈ burst.tail, v ≤ 1000000 := by
  generalize hc : (if (current.length % 2 == 1) = true then current.dropLast else current) = c at hb
  by_cases hcn : c = []
  · subst hcn; simp at hb
  · rw [if_pos hcn] at hb
    have hbc : burst = c := by simpa using hb
    subst hbc
    constructor
    · rw [← hc]; exact IR.evenTrim_even current
    · intro v hv
      rw [← hc] at hv
      split at hv
      · exact hcur v (mem_tail_dropLast hv)
      · exact hcur v hv

theorem split_go_shape (data : List Int) :
    ∀ (current : List Int), (∀ v ∈ current.tail, v ≤ 1000000) →
      ∀ burst ∈ split_go data current, Even burst.length ∧ ∀ v ∈ burst.tail, v ≤ 1000000 := by
  induction data with
  | nil =>
    intro current hcur burst hb
    simp only [split_go] at hb
    by_cases hem : current = []
    · rw [if_neg (by simp [hem])] at hb; simp at hb
    · rw [if_pos hem] at hb
      exact flush_shape current burst hcur hb
  | cons w rest ih =>
    intro current hcur burst hb
    simp only [split_go] at hb
    split at hb
    · next hcond =>
      rcases List.mem_append.mp hb with h1 | h2
      · exact flush_shape current burst hcur h1
      · exact ih [] (by simp) burst h2
    · next hcond =>
      refine ih (current ++ [w]) ?_ burst hb
      intro v hv
      cases current with
      | nil => simp at hv
      | cons c0 ct =>
        rw [List.cons_append, List.tail_cons] at hv
        rcases List.mem_append.mp hv with h1 | h2
        · exact hcur v (by simpa using h1)
        · have hw : v = w := by simpa using h2
          subst hw
          by_contra hgt
          exact hcond ⟨by omega, by simp⟩

/-- C3 (amended): every burst `_split_bursts` returns has even length, and
every element after a burst's first element is at most 1,000,000µs — a marker
value closes the accumulator (and is dropped) only when the accumulator is
non-empty, so a marker can survive only as the first element of a burst. -/
theorem c3_burst_shape (data burst : List Int) (h : burst ∈ split_bursts data) :
    Even burst.length ∧ ∀ v ∈ burst.tail, v ≤ 1000000 := by
  unfold split_bursts at h
  split at h
  · simp at h
  · exact split_go_shape data [] (by simp) burst h

/-- C3 witness: the burst-shape property at a concrete segmented capture. -/
theorem c3_witness :
    Even ([100, 200] : List Int).length ∧ ∀ v ∈ ([100, 200] : List Int).tail, v ≤ 1000000 :=
  c3_burst_shape [100, 200, 2000000, 300, 400] [100, 200] (by decide)

/-! ### Claim C6 -/

theorem compactAux_ne_nil {l : List Nat} (h : l ≠ []) : compactAux l ≠ [] := by
  induction l with
  | nil => exact absurd rfl h
  | cons x rest ih =>
    cases rest with
    | nil => simp [compactAux]
    | cons y t =>
      show compactAux (x :: y :: t) ≠ []
      unfold compactAux
      split
      · exact ih (by simp)
      · simp

theorem compact_bytes_eq_nil_iff (l : List Nat) : compact_bytes l = [] ↔ l = [] := by
  constructor
  · intro h
    by_contra hne
    unfold compact_bytes at h
    rw [if_neg hne] at h
    have h1 : compactAux l.reverse ≠ [] := compactAux_ne_nil (by simpa using hne)
    simp only [List.reverse_eq_nil_iff] at h
    exact h1 h
  · intro h; subst h; rfl

/-- C6: `_build_scancode` fails (returns the absent result) exactly when the
parsed hex-byte list of the address or of the command is empty — the
`InvalidHex` condition of the spec; for every protocol with non-empty hex on
both sides some packed scancode is returned, the unsupported-protocol failure
case being empty (the generic branch packs any protocol). -/
theorem c6_build_scancode_failure_iff (protocol address command : String) :
    build_scancode protocol address command = none ↔
      parse_hex_bytes address = [] ∨ parse_hex_bytes command = [] := by
  unfold build_scancode
  simp only
  split
  · next h =>
    simp only [compact_bytes_eq_nil_iff] at h
    simpa using h
  · next h =>
    simp only [compact_bytes_eq_nil_iff] at h
    refine iff_of_false ?_ h
    split
    · simp
    · split
      · simp
      · simp

end Lirc

namespace Lirc

/-! ### Hex formatting / parsing inverses and packing arithmetic (for C8) -/

theorem hexVal_le (c : Char) : hexVal c ≤ 15 := by
  unfold hexVal
  split_ifs <;> omega

set_option maxRecDepth 4000 in
theorem hexVal_hexDigit : ∀ n < 16, ∀ u : Bool, hexVal (IR.hexDigit n u) = n := by decide

set_option maxRecDepth 4000 in
theorem isHexChar_hexDigit : ∀ n < 16, ∀ u : Bool, isHexChar (IR.hexDigit n u) = true := by decide

set_option maxRecDepth 4000 in
theorem format02X_eq :
    ∀ v < 256, IR.format02X v = ⟨[IR.hexDigit (v / 16) true, IR.hexDigit (v % 16) true]⟩ := by
  decide

theorem parseHexPairs_lt : ∀ (n : Nat) (cs : List Char), cs.length ≤ n →
    ∀ v ∈ parseHexPairs cs, v < 256 := by
  intro n
  induction n with
  | zero =>
    intro cs hlen v hv
    match cs, hlen with
    | [], _ => simp [parseHexPairs] at hv
  | succ n ih =>
    intro cs hlen v hv
    match cs with
    | [] => simp [parseHexPairs] at hv
    | [c] => simp [parseHexPairs] at hv
    | c1 :: c2 :: rest =>
      rw [parseHexPairs] at hv
      split at hv
      · rcases List.mem_cons.mp hv with h1 | h2
        · have l1 := hexVal_le c1
          have l2 := hexVal_le c2
          omega
        · exact ih rest (by simp at hlen; omega) v h2
      · exact ih (c2 :: rest) (by simp at hlen ⊢; omega) v hv

theorem mem_parse_hex_lt {s : String} : ∀ v ∈ parse_hex_bytes s, v < 256 :=
  parseHexPairs_lt s.data.length s.data le_rfl

theorem mem_compactAux {l : List Nat} {v : Nat} (h : v ∈ compactAux l) : v ∈ l := by
  induction l with
  | nil => simp [compactAux] at h
  | cons x rest ih =>
    cases rest with
    | nil => simpa [compactAux] using h
    | cons y t =>
      rw [compactAux] at h
      split at h
      · exact List.mem_cons_of_mem _ (ih h)
      · exact h

theorem mem_compact_bytes {l : List Nat} {v : Nat} (h : v ∈ compact_bytes l) : v ∈ l := by
  unfold compact_bytes at h
  split at h
  · simp at h
  · rw [List.mem_reverse] at h
    have := mem_compactAux h
    rwa [List.mem_reverse] at this

theorem compactAux_idem (l : List Nat) : compactAux (compactAux l) = compactAux l := by
  induction l with
  | nil => rfl
  | cons x rest ih =>
    cases rest with
    | nil => rfl
    | cons y t =>
      by_cases hx : x = 0
      · rw [show compactAux (x :: y :: t) = compactAux (y :: t) by rw [compactAux, if_pos hx]]
        exact ih
      · have h1 : compactAux (x :: y :: t) = x :: y :: t := by rw [compactAux, if_neg hx]
        rw [h1, h1]

theorem compact_bytes_idem (l : List Nat) : compact_bytes (compact_bytes l) = compact_bytes l := by
  by_cases hl : l = []
  · subst hl; rfl
  · have h1 : compact_bytes l = (compactAux l.reverse).reverse := by
      rw [compact_bytes, if_neg hl]
    have hne : compactAux l.reverse ≠ [] := compactAux_ne_nil (by simpa using hl)
    have hne2 : compact_bytes l ≠ [] := by
      rw [h1]
      simpa using hne
    rw [compact_bytes, if_neg hne2, h1, List.reverse_reverse, compactAux_idem]

theorem compact_bytes_single (a : Nat) : compact_bytes [a] = [a] := rfl

/-- Disjoint bitwise or is addition: `(a <<< k) ||| x = a * 2 ^ k + x` for `x < 2 ^ k`. -/
theorem shiftLeft_lor_eq_add (k : Nat) : ∀ a x : Nat, x < 2 ^ k → (a <<< k) ||| x = a * 2 ^ k + x := by
  induction k with
  | zero =>
    intro a x hx
    interval_cases x
    simp [Nat.shiftLeft_eq]
  | succ k ih =>
    intro a x hx
    have hx2 : x >>> 1 < 2 ^ k := by
      have hp : 2 ^ (k + 1) = 2 * 2 ^ k := by rw [pow_succ]; ring
      rw [Nat.shiftRight_one]
      omega
    have hsh : a <<< (k + 1) = Nat.bit false (a <<< k) := by
      simp only [Nat.shiftLeft_eq, Nat.bit_val, Bool.toNat_false, pow_succ]
      ring
    obtain ⟨b, m, rfl, hm⟩ : ∃ (b : Bool) (m : Nat), x = Nat.bit b m ∧ m < 2 ^ k :=
      ⟨decide (x % 2 = 1), x >>> 1, (Nat.bit_decide_mod_two_eq_one_shiftRight_one x).symm, hx2⟩
    rw [hsh, Nat.lor_bit, Bool.false_or, ih a m hm, Nat.bit_val, Nat.bit_val, pow_succ]
    cases b
    · simp only [Bool.toNat_false]
      ring
    · simp only [Bool.toNat_true]
      ring

theorem and_255_eq_mod (n : Nat) : n &&& 255 = n % 256 := by
  have h := Nat.and_pow_two_sub_one_eq_mod n 8
  norm_num at h
  exact h

/-- NEC-style four-byte packing as nested arithmetic. -/
theorem pack4_eq (b3 b2 b1 b0 : Nat) (h2 : b2 < 256) (h1 : b1 < 256) (h0 : b0 < 256) :
    (b3 <<< 24) ||| (b2 <<< 16) ||| (b1 <<< 8) ||| b0 =
      ((b3 * 256 + b2) * 256 + b1) * 256 + b0 := by
  have e10 : (b1 <<< 8) ||| b0 = b1 * 2 ^ 8 + b0 := shiftLeft_lor_eq_add 8 b1 b0 (by norm_num; omega)
  have hb10 : b1 * 2 ^ 8 + b0 < 2 ^ 16 := by norm_num; omega
  have e210 : (b2 <<< 16) ||| (b1 * 2 ^ 8 + b0) = b2 * 2 ^ 16 + (b1 * 2 ^ 8 + b0) :=
    shiftLeft_lor_eq_add 16 b2 _ hb10
  have hb210 : b2 * 2 ^ 16 + (b1 * 2 ^ 8 + b0) < 2 ^ 24 := by norm_num; omega
  have e3210 : (b3 <<< 24) ||| (b2 * 2 ^ 16 + (b1 * 2 ^ 8 + b0)) =
      b3 * 2 ^ 24 + (b2 * 2 ^ 16 + (b1 * 2 ^ 8 + b0)) :=
    shiftLeft_lor_eq_add 24 b3 _ hb210
  rw [Nat.lor_assoc, Nat.lor_assoc, e10, e210, e3210]
  norm_num
  ring

theorem int_to_bytes_len_4 (b3 b2 b1 b0 : Nat) (h3 : b3 < 256) (h2 : b2 < 256)
    (h1 : b1 < 256) (h0 : b0 < 256) :
    int_to_bytes_len (((b3 * 256 + b2) * 256 + b1) * 256 + b0) 4 = [b3, b2, b1, b0] := by
  unfold int_to_bytes_len
  rw [show List.range 4 = [0, 1, 2, 3] from rfl]
  simp only [List.map_cons, List.map_nil, Nat.shiftRight_eq_div_pow, and_255_eq_mod]
  norm_num
  refine ⟨?_, ?_, ?_, ?_⟩ <;> omega

theorem bytes_to_int_one (a : Nat) : bytes_to_int [a] = a := by
  simp [bytes_to_int]

theorem bytes_to_int_two (a b : Nat) (hb : b < 256) : bytes_to_int [a, b] = a * 256 + b := by
  have h : bytes_to_int [a, b] = (((0 <<< 8) ||| a) <<< 8) ||| b := rfl
  have h0 : (0 <<< 8) ||| a = a := by simp
  rw [h, h0, shiftLeft_lor_eq_add 8 a b (by norm_num; omega)]
  norm_num

end Lirc

namespace Lirc

theorem takeWhile_all {α : Type} (p : α → Bool) :
    ∀ l : List α, (∀ c ∈ l, p c = true) → l.takeWhile p = l := by
  intro l
  induction l with
  | nil => intro _; rfl
  | cons a t ih =>
    intro h
    rw [List.takeWhile_cons, if_pos (h a (List.mem_cons_self _ _)), ih (fun c hc => h c (List.mem_cons_of_mem _ hc))]

theorem fold_pad (k : Nat) :
    ∀ a : Nat, (List.replicate k '0').foldl (fun acc c => acc * 16 + hexVal c) a = a * 16 ^ k := by
  induction k with
  | zero => intro a; simp
  | succ k ih =>
    intro a
    rw [List.replicate_succ, List.foldl_cons, ih]
    rw [show hexVal '0' = 0 from rfl, pow_succ]
    ring

theorem hexAux_len (u : Bool) : ∀ fuel n k : Nat, 1 ≤ k → n < 16 ^ k →
    (IR.natHexCharsAux u fuel n).length ≤ k := by
  intro fuel
  induction fuel with
  | zero => intro n k hk _; simp [IR.natHexCharsAux]
  | succ f ih =>
    intro n k hk hn
    rw [IR.natHexCharsAux]
    split
    · simpa using hk
    · next h16 =>
      have hk2 : 2 ≤ k := by
        by_contra hlt
        have hk1 : k = 1 := by omega
        subst hk1
        simp at hn
        omega
      have hp : 16 ^ k = 16 ^ (k - 1) * 16 := by
        rw [← pow_succ]
        congr 1
        omega
      have hdiv : n / 16 < 16 ^ (k - 1) := by
        rw [hp] at hn
        omega
      have := ih (n / 16) (k - 1) (by omega) hdiv
      simp only [List.length_append, List.length_cons, List.length_nil]
      omega

theorem hexAux_spec (u : Bool) : ∀ fuel n : Nat, 0 < fuel → n < 16 ^ fuel →
    (∀ c ∈ IR.natHexCharsAux u fuel n, isHexChar c = true) ∧
    IR.natHexCharsAux u fuel n ≠ [] ∧
    ∀ a : Nat, (IR.natHexCharsAux u fuel n).foldl (fun acc c => acc * 16 + hexVal c) a =
      a * 16 ^ (IR.natHexCharsAux u fuel n).length + n := by
  intro fuel
  induction fuel with
  | zero => intro n h _; omega
  | succ f ih =>
    intro n _ hn
    rw [IR.natHexCharsAux]
    split
    · next h16 =>
      refine ⟨?_, by simp, ?_⟩
      · intro c hc
        have hce : c = IR.hexDigit n u := by simpa using hc
        subst hce
        exact isHexChar_hexDigit n h16 u
      · intro a
        simp only [List.foldl_cons, List.foldl_nil, List.length_cons, List.length_nil]
        rw [hexVal_hexDigit n h16 u]
        norm_num
    · next h16 =>
      have hf : 0 < f := by
        rcases Nat.eq_zero_or_pos f with rfl | h
        · simp at hn; omega
        · exact h
      have hdiv : n / 16 < 16 ^ f := by
        have hp : 16 ^ (f + 1) = 16 ^ f * 16 := pow_succ 16 f
        rw [hp] at hn
        omega
      obtain ⟨hhex, hne, hval⟩ := ih (n / 16) hf hdiv
      refine ⟨?_, by simp, ?_⟩
      · intro c hc
        rcases List.mem_append.mp hc with h1 | h2
        · exact hhex c h1
        · have hce : c = IR.hexDigit (n % 16) u := by simpa using h2
          subst hce
          exact isHexChar_hexDigit (n % 16) (by omega) u
      · intro a
        rw [List.foldl_append]
        simp only [List.foldl_cons, List.foldl_nil]
        rw [hval a, hexVal_hexDigit (n % 16) (by omega) u]
        simp only [List.length_append, List.length_cons, List.length_nil]
        have harr : (IR.natHexCharsAux u f (n / 16)).length + (0 + 1) =
            (IR.natHexCharsAux u f (n / 16)).length + 1 := by omega
        rw [harr, pow_succ, ← mul_assoc]
        omega

theorem parse_scancode_formatHexPad (n : Nat) (hn : n < 4294967296) :
    parse_scancode_value ("0x" ++ formatHexPad 8 n) = some n := by
  have hfuel : n < 16 ^ (n + 1) :=
    lt_of_lt_of_le (Nat.lt_pow_self (by norm_num) n) (Nat.pow_le_pow_right (by norm_num) (by omega))
  obtain ⟨hhex, hne, hval⟩ := hexAux_spec false (n + 1) n (by omega) hfuel
  have h168 : (16 : Nat) ^ 8 = 4294967296 := by norm_num
  have hlen : (IR.natHexCharsAux false (n + 1) n).length ≤ 8 :=
    hexAux_len false (n + 1) n 8 (by norm_num) (by rw [h168]; exact hn)
  have hdata : ("0x" ++ formatHexPad 8 n).data =
      '0' :: 'x' :: (List.replicate (8 - (IR.natHexCharsAux false (n + 1) n).length) '0' ++
        IR.natHexCharsAux false (n + 1) n) := by
    rw [String.data_append]
    rfl
  have hall : ∀ c ∈ List.replicate (8 - (IR.natHexCharsAux false (n + 1) n).length) '0' ++
      IR.natHexCharsAux false (n + 1) n, isHexChar c = true := by
    intro c hc
    rcases List.mem_append.mp hc with h1 | h2
    · have hc0 : c = '0' := List.eq_of_mem_replicate h1
      subst hc0
      rfl
    · exact hhex c h2
  have hrun : hexRunVal (List.replicate (8 - (IR.natHexCharsAux false (n + 1) n).length) '0' ++
      IR.natHexCharsAux false (n + 1) n) = n := by
    unfold hexRunVal
    rw [takeWhile_all _ _ hall, List.foldl_append, fold_pad, hval]
    simp
  obtain ⟨c, rest, hcr⟩ : ∃ c rest,
      List.replicate (8 - (IR.natHexCharsAux false (n + 1) n).length) '0' ++
        IR.natHexCharsAux false (n + 1) n = c :: rest := by
    have : List.replicate (8 - (IR.natHexCharsAux false (n + 1) n).length) '0' ++
        IR.natHexCharsAux false (n + 1) n ≠ [] := by
      simp [hne]
    exact List.exists_cons_of_ne_nil this
  unfold parse_scancode_value
  rw [hdata, hcr]
  rw [show psvAux ('0' :: 'x' :: c :: rest) =
    if isHexChar c then some (hexRunVal (c :: rest)) else some 0 from rfl]
  rw [if_pos (hall c (hcr ▸ List.mem_cons_self c rest))]
  rw [← hcr, hrun]

set_option maxRecDepth 4000 in
theorem parse_hex_format_one : ∀ a < 256, parse_hex_bytes (format_bytes [a]) = [a] := by decide

theorem parse_hex_format_two (a b : Nat) (ha : a < 256) (hb : b < 256) :
    parse_hex_bytes (format_bytes [a, b]) = [a, b] := by
  have hfa := format02X_eq a ha
  have hfb := format02X_eq b hb
  have hint : format_bytes [a, b] = IR.format02X a ++ " " ++ IR.format02X b := rfl
  unfold parse_hex_bytes
  rw [hint, hfa, hfb]
  rw [show ((⟨[IR.hexDigit (a / 16) true, IR.hexDigit (a % 16) true]⟩ ++ " " ++
      (⟨[IR.hexDigit (b / 16) true, IR.hexDigit (b % 16) true]⟩ : String) : String)).data =
    [IR.hexDigit (a / 16) true, IR.hexDigit (a % 16) true, ' ',
      IR.hexDigit (b / 16) true, IR.hexDigit (b % 16) true] by
    simp [String.data_append]]
  rw [parseHexPairs, if_pos (by
    rw [isHexChar_hexDigit (a / 16) (by omega) true, isHexChar_hexDigit (a % 16) (by omega) true]
    rfl)]
  rw [parseHexPairs, if_neg (by rw [show isHexChar ' ' = false from rfl]; simp)]
  rw [parseHexPairs, if_pos (by
    rw [isHexChar_hexDigit (b / 16) (by omega) true, isHexChar_hexDigit (b % 16) (by omega) true]
    rfl)]
  rw [show parseHexPairs ([] : List Char) = [] from rfl]
  rw [hexVal_hexDigit (a / 16) (by omega) true, hexVal_hexDigit (a % 16) (by omega) true,
    hexVal_hexDigit (b / 16) (by omega) true, hexVal_hexDigit (b % 16) (by omega) true]
  have hha : a / 16 * 16 + a % 16 = a := by omega
  have hhb : b / 16 * 16 + b % 16 = b := by omega
  rw [hha, hhb]

end Lirc

namespace Lirc

/-- C8 counterexample: for NECext and the 1-byte inputs `addr = "01"`,
`cmd = "02"`, decoding the encoded scancode yields `("00 01", "00 02")` —
a *leading* zero byte appears on each side, which trailing-zero-byte trimming
does not remove, so the round trip does not reproduce `(addr, cmd)` even up to
trailing-zero trimming. -/
theorem c8_counterexample :
    build_scancode "NECext" "01" "02" = some "0x00010002" ∧
      decode_scancode "NECext" "0x00010002" = ("00 01", "00 02") ∧
      compact_bytes (parse_hex_bytes "00 01") ≠ compact_bytes (parse_hex_bytes "01") ∧
      compact_bytes (parse_hex_bytes "00 02") ≠ compact_bytes (parse_hex_bytes "02") := by
  decide

/-- C8 (amended): the encode/decode round trip reproduces `(addr, cmd)` up to
trailing-zero-byte trimming for NEC exactly when the trimmed address and
command are one byte each, and for NECext exactly when they are two bytes
each; NEC uses only the first byte of each side, and NECext re-expands to two
bytes per side, so other widths change the value (as the counterexample
shows). -/
theorem c8_nec_family_roundtrip :
    (∀ (address command : String) (a c : Nat),
        compact_bytes (parse_hex_bytes address) = [a] →
        compact_bytes (parse_hex_bytes command) = [c] →
        ∃ sc, build_scancode "NEC" address command = some sc ∧
          decode_scancode "NEC" sc = (format_bytes [a], format_bytes [c]) ∧
          compact_bytes (parse_hex_bytes (format_bytes [a])) =
            compact_bytes (parse_hex_bytes address) ∧
          compact_bytes (parse_hex_bytes (format_bytes [c])) =
            compact_bytes (parse_hex_bytes command)) ∧
    (∀ (address command : String) (a1 a2 c1 c2 : Nat),
        compact_bytes (parse_hex_bytes address) = [a1, a2] →
        compact_bytes (parse_hex_bytes command) = [c1, c2] →
        ∃ sc, build_scancode "NECext" address command = some sc ∧
          decode_scancode "NECext" sc = (format_bytes [a1, a2], format_bytes [c1, c2]) ∧
          compact_bytes (parse_hex_bytes (format_bytes [a1, a2])) =
            compact_bytes (parse_hex_bytes address) ∧
          compact_bytes (parse_hex_bytes (format_bytes [c1, c2])) =
            compact_bytes (parse_hex_bytes command)) := by
  constructor
  · intro address command a c hA hC
    have ha256 : a < 256 := mem_parse_hex_lt a (mem_compact_bytes (by
      rw [hA]; exact List.mem_cons_self _ _))
    have hc256 : c < 256 := mem_parse_hex_lt c (mem_compact_bytes (by
      rw [hC]; exact List.mem_cons_self _ _))
    have hx : a ^^^ 0xFF < 256 := by
      have h := @Nat.xor_lt_two_pow a 255 8 (by norm_num; omega) (by norm_num)
      norm_num at h
      exact h
    have hy : c ^^^ 0xFF < 256 := by
      have h := @Nat.xor_lt_two_pow c 255 8 (by norm_num; omega) (by norm_num)
      norm_num at h
      exact h
    have hpack : (a <<< 24) ||| ((a ^^^ 0xFF) <<< 16) ||| (c <<< 8) ||| (c ^^^ 0xFF) =
        ((a * 256 + (a ^^^ 0xFF)) * 256 + c) * 256 + (c ^^^ 0xFF) :=
      pack4_eq a (a ^^^ 0xFF) c (c ^^^ 0xFF) hx hc256 hy
    have hbuild : build_scancode "NEC" address command =
        some ("0x" ++ formatHexPad 8 (((a * 256 + (a ^^^ 0xFF)) * 256 + c) * 256 + (c ^^^ 0xFF))) := by
      unfold build_scancode
      rw [hA, hC]
      rw [if_neg (by simp)]
      simp only
      rw [if_pos ⟨by decide, by simp, by simp⟩]
      simp only [List.getD_cons_zero]
      rw [hpack]
    have hvlt : ((a * 256 + (a ^^^ 0xFF)) * 256 + c) * 256 + (c ^^^ 0xFF) < 4294967296 := by
      omega
    have hdecode : decode_scancode "NEC"
        ("0x" ++ formatHexPad 8 (((a * 256 + (a ^^^ 0xFF)) * 256 + c) * 256 + (c ^^^ 0xFF))) =
        (format_bytes [a], format_bytes [c]) := by
      unfold decode_scancode
      rw [parse_scancode_formatHexPad _ hvlt]
      simp only
      rw [if_pos (by decide : normalize_protocol "NEC" = "nec")]
      rw [int_to_bytes_len_4 a (a ^^^ 0xFF) c (c ^^^ 0xFF) ha256 hx hc256 hy]
      rfl
    refine ⟨_, hbuild, hdecode, ?_, ?_⟩
    · rw [parse_hex_format_one a ha256, compact_bytes_single, hA]
    · rw [parse_hex_format_one c hc256, compact_bytes_single, hC]
  · intro address command a1 a2 c1 c2 hA hC
    have ha1 : a1 < 256 := mem_parse_hex_lt a1 (mem_compact_bytes (by
      rw [hA]; exact List.mem_cons_self _ _))
    have ha2 : a2 < 256 := mem_parse_hex_lt a2 (mem_compact_bytes (by
      rw [hA]; exact List.mem_cons_of_mem _ (List.mem_cons_self _ _)))
    have hc1 : c1 < 256 := mem_parse_hex_lt c1 (mem_compact_bytes (by
      rw [hC]; exact List.mem_cons_self _ _))
    have hc2 : c2 < 256 := mem_parse_hex_lt c2 (mem_compact_bytes (by
      rw [hC]; exact List.mem_cons_of_mem _ (List.mem_cons_self _ _)))
    have hbiA : bytes_to_int [a1, a2] = a1 * 256 + a2 := bytes_to_int_two a1 a2 ha2
    have hbiC : bytes_to_int [c1, c2] = c1 * 256 + c2 := bytes_to_int_two c1 c2 hc2
    have hcmdlt : c1 * 256 + c2 < 2 ^ 16 := by norm_num; omega
    have hpack : ((a1 * 256 + a2) <<< 16) ||| (c1 * 256 + c2) =
        ((a1 * 256 + a2) * 256 + c1) * 256 + c2 := by
      rw [shiftLeft_lor_eq_add 16 _ _ hcmdlt]
      norm_num
      ring
    have hbuild : build_scancode "NECext" address command =
        some ("0x" ++ formatHexPad 8 (((a1 * 256 + a2) * 256 + c1) * 256 + c2)) := by
      unfold build_scancode
      rw [hA, hC]
      rw [if_neg (by simp)]
      simp only
      rw [if_neg (by
        intro h
        exact absurd h.1 (by decide))]
      rw [if_pos (by decide)]
      rw [show List.take 2 [a1, a2] = [a1, a2] from rfl, show List.take 2 [c1, c2] = [c1, c2] from rfl]
      rw [hbiA, hbiC, hpack]
    have hvlt : ((a1 * 256 + a2) * 256 + c1) * 256 + c2 < 4294967296 := by omega
    have hdecode : decode_scancode "NECext"
        ("0x" ++ formatHexPad 8 (((a1 * 256 + a2) * 256 + c1) * 256 + c2)) =
        (format_bytes [a1, a2], format_bytes [c1, c2]) := by
      unfold decode_scancode
      rw [parse_scancode_formatHexPad _ hvlt]
      simp only
      rw [if_neg (by decide : ¬ normalize_protocol "NECext" = "nec")]
      rw [if_pos (by decide : normalize_protocol "NECext" = "necx" ∨
        normalize_protocol "NECext" = "nec_ext" ∨ normalize_protocol "NECext" = "necext")]
      rw [int_to_bytes_len_4 a1 a2 c1 c2 ha1 ha2 hc1 hc2]
      rfl
    refine ⟨_, hbuild, hdecode, ?_, ?_⟩
    · rw [parse_hex_format_two a1 a2 ha1 ha2, ← compact_bytes_idem (parse_hex_bytes address), hA]
    · rw [parse_hex_format_two c1 c2 hc1 hc2, ← compact_bytes_idem (parse_hex_bytes command), hC]

/-- C8 witness: the NEC round trip applied at `addr = "01"`, `cmd = "02"`. -/
theorem c8_witness :
    ∃ sc, build_scancode "NEC" "01" "02" = some sc ∧
      decode_scancode "NEC" sc = (format_bytes [1], format_bytes [2]) ∧
      compact_bytes (parse_hex_bytes (format_bytes [1])) =
        compact_bytes (parse_hex_bytes "01") ∧
      compact_bytes (parse_hex_bytes (format_bytes [2])) =
        compact_bytes (parse_hex_bytes "02") :=
  c8_nec_family_roundtrip.1 "01" "02" 1 2 (by decide) (by decide)

end Lirc

/-!
Embedding of the capture-aggregation methods of `src/ui/app.py`
(`_aggregate_capture`, `_aggregate_parsed`, `_majority_value`,
`_trim_raw_entries`, `_aggregate_raw_baseline`, `_select_best_raw`,
`_select_carrier`, `_median_int`, `_aggregate_detail_line`).  Captures are
modelled by the dictionary fields these methods read; `None` becomes `none`;
duty cycles are carried as integers in millionths (they are only compared for
equality and truthiness here).
-/

namespace App

/-- The capture-dictionary fields read by the aggregation methods. -/
structure Capture where
  signal_type : String
  protocol : Option String
  address : Option String
  command : Option String
  frequency : Option Int
  duty_cycle : Option Int
  data : Option (List Int)
  raw_data : Option (List Int)
  raw_burst : Option (List Int)
  raw_frequency : Option Int
  raw_duty_cycle : Option Int
deriving DecidableEq

/-- `capture.get("raw_burst") or capture.get("raw_data") or capture.get("data")`:
Python `or` treats both `None` and the empty list as falsy. -/
def pickRaw (c : Capture) : List Int :=
  if (c.raw_burst.getD []) ≠ [] then c.raw_burst.getD []
  else if (c.raw_data.getD []) ≠ [] then c.raw_data.getD []
  else c.data.getD []

def minNat : List Nat → Nat
  | [] => 0
  | x :: xs => xs.foldl min x

/-- `_trim_raw_entries(entries)`. -/
def trim_raw_entries (entries : List (Capture × List Int)) : List (Capture × List Int) :=
  let lengths := (entries.filter (fun e => e.2 ≠ [])).map (fun e => e.2.length)
  if lengths = [] then []
  else
    let min_len := minNat lengths
    (entries.filter (fun e => min_len ≤ e.2.length)).map (fun e => (e.1, e.2.take min_len))

/-- `_median_int(values)`: `int()` truncation of the float midpoint is exact
integer truncated division. -/
def median_int (values : List Int) : Int :=
  if values = [] then 0
  else
    let ordered := IR.sortInts values
    let mid := ordered.length / 2
    if ordered.length % 2 == 1 then ordered.getD mid 0
    else Int.tdiv (ordered.getD (mid - 1) 0 + ordered.getD mid 0) 2

/-- `_aggregate_raw_baseline(entries, mode)`; Python's
`int(sum(column) / len(column))` is exact truncated division. -/
def aggregate_raw_baseline (entries : List (Capture × List Int)) (mode : String) :
    Option (List Int) :=
  if entries = [] then none
  else
    let samples := entries.map (fun e => e.2)
    if samples = [] then none
    else
      let length := (samples.headD []).length
      some ((List.range length).map fun idx =>
        let column := samples.map (fun row => row.getD idx 0)
        if mode = "Mean" then Int.tdiv column.sum column.length
        else median_int column)

/-- `_select_best_raw(entries, baseline)`: the first entry of strictly minimal
total absolute deviation wins (`score < best_score` is strict). -/
def select_best_raw (entries : List (Capture × List Int)) (baseline : List Int) :
    Option Capture :=
  if entries = [] ∨ baseline = [] then none
  else
    let scored := entries.map (fun e =>
      (e.1, (e.2.zip baseline).foldl (fun acc p => acc + |p.1 - p.2|) 0))
    match scored with
    | [] => none
    | s0 :: rest => some (rest.foldl (fun best x => if x.2 < best.2 then x else best) s0).1

/-- First-seen-order tally, the counts dictionary of `_majority_value`. -/
def tally {α : Type} [DecidableEq α] (values : List α) : List (α × Nat) :=
  values.foldl (fun acc v =>
    if acc.any (fun p => p.1 == v) then
      acc.map (fun p => if p.1 == v then (p.1, p.2 + 1) else p)
    else acc ++ [(v, 1)]) []

/-- `_majority_value(values)`: skip `None`, then the first value of maximal
count (Python `max` keeps the first maximum in dict order). -/
def majority_value {α : Type} [DecidableEq α] (values : List (Option α)) : Option α :=
  match tally (values.filterMap id) with
  | [] => none
  | t0 :: rest => some (rest.foldl (fun best x => if x.2 > best.2 then x else best) t0).1

/-- Python `a or b` on optional numbers: `None` and `0` are falsy. -/
def orPyOptInt (a b : Option Int) : Option Int := if a.getD 0 ≠ 0 then a else b

/-- `_select_carrier(entries)`. -/
def select_carrier (entries : List (Capture × List Int)) : Option Int × Option Int :=
  let frequencies := entries.map (fun e => orPyOptInt e.1.raw_frequency e.1.frequency)
  let duties := entries.map (fun e => orPyOptInt e.1.raw_duty_cycle e.1.duty_cycle)
  (majority_value (frequencies.filter (fun v => v.getD 0 ≠ 0)),
   majority_value (duties.filter (fun v => v.isSome)))

/-- The dictionaries `_aggregate_capture` can return, as a closed variant:
the winning original capture (Best), a synthesized raw aggregate, or the
majority-voted parsed aggregate. -/
inductive AggResult where
  | bestOf (c : Capture)
  | rawAgg (name : String) (frequency : Option Int) (duty_cycle : Option Int) (data : List Int)
  | parsedAgg (protocol address command : Option String)
deriving DecidableEq

/-- `_aggregate_parsed()`. -/
def aggregate_parsed (captures : List Capture) : Option AggResult :=
  let parsed := captures.filter (fun c => c.signal_type ≠ "raw")
  if parsed = [] then none
  else some (.parsedAgg (majority_value (parsed.map (fun c => c.protocol)))
    (majority_value (parsed.map (fun c => c.address)))
    (majority_value (parsed.map (fun c => c.command))))

/-- `_aggregate_capture(mode)` over the in-memory capture list. -/
def aggregate_capture (captures : List Capture) (mode : String) : Option AggResult :=
  if captures = [] then none
  else
    let raw_entries := captures.filterMap (fun c =>
      let raw_data := pickRaw c
      if raw_data ≠ [] then some (c, raw_data) else none)
    if raw_entries ≠ [] then
      let trimmed := trim_raw_entries raw_entries
      match aggregate_raw_baseline trimmed mode with
      | none => none
      | some baseline =>
        match (if mode = "Best" then select_best_raw trimmed baseline else none) with
        | some best => some (.bestOf best)
        | none =>
          let fd := select_carrier raw_entries
          some (.rawAgg ("Aggregate " ++ mode) fd.1 fd.2 baseline)
    else aggregate_parsed captures

/-- Result of `_aggregate_detail_line`. -/
inductive DetailLine where
  | msg (s : String)
  | stats (columns : List (List Int))
deriving DecidableEq

/-- `_aggregate_detail_line()`: the two insufficient-data messages are
modelled exactly; the statistics branch (float standard deviation via
`math.sqrt` and the formatted accuracy percentage) is abstracted to the
per-index trimmed columns it computes them from. -/
def aggregate_detail_line (captures : List Capture) : DetailLine :=
  let raw_entries := captures.filterMap (fun c =>
    let raw_data := pickRaw c
    if raw_data ≠ [] then some raw_data else none)
  if raw_entries.length < 2 then .msg "Aggregate requires at least 2 raw captures."
  else
    let min_len := minNat (raw_entries.map List.length)
    let trimmed : List (List Int) := raw_entries.map (fun d => d.take min_len)
    if trimmed = [] then .msg "Aggregate requires raw captures."
    else .stats ((List.range min_len).map fun idx => trimmed.map (fun row => row.getD idx 0))

/-! ### Claim C2 -/

/-- C2 counterexample: a capture list with exactly one raw timing sample does
*not* yield an insufficient-data state from `_aggregate_capture`: Mean mode
returns a numeric consensus equal to that single sample. -/
theorem c2_counterexample :
    aggregate_capture
      [⟨"raw", none, none, none, none, none, some [100, 200], none, none, none, none⟩] "Mean" =
      some (.rawAgg "Aggregate Mean" none none [100, 200]) := by
  decide

/-- C2 (amended): with fewer than 2 raw samples the aggregate *detail line*
does report the explicit "insufficient data" message; but `_aggregate_capture`
itself enforces no minimum — given exactly one raw sample it still produces a
numeric consensus result equal to that sample. -/
theorem c2_insufficient_data (captures : List Capture)
    (h : (captures.filterMap (fun c =>
      let raw_data := pickRaw c
      if raw_data ≠ [] then some raw_data else none)).length < 2) :
    aggregate_detail_line captures = .msg "Aggregate requires at least 2 raw captures." ∧
      aggregate_capture
        [⟨"raw", none, none, none, none, none, some [500, 600], none, none, none, none⟩] "Mean" =
        some (.rawAgg "Aggregate Mean" none none [500, 600]) := by
  constructor
  · unfold aggregate_detail_line
    rw [if_pos h]
  · decide

/-- C2 witness: the insufficient-data message at the empty capture list. -/
theorem c2_witness :
    aggregate_detail_line [] = .msg "Aggregate requires at least 2 raw captures." ∧
      aggregate_capture
        [⟨"raw", none, none, none, none, none, some [500, 600], none, none, none, none⟩] "Mean" =
        some (.rawAgg "Aggregate Mean" none none [500, 600]) :=
  c2_insufficient_data [] (by decide)

end App

/-!
Embedding of the persisted signal text format (`src/ir/flipper_ir.py`):
`serialize_signals` / `parse_signals` and the record builder.  Strings are
processed as character lists; `str(int)` and `f"{x:.6f}"` are modelled
exactly over integers, with duty cycles carried as integer millionths (the
`%.6f` serialization makes six decimals the round-trippable precision of the
Python floats as well).  The models of `int(value, 0)`, `int(value)` and
`float(value)` cover the decimal forms the serializer emits and return
`none` on the further forms Python accepts (hex/octal prefixes, underscores,
exponents, inf/nan), which the round-trip claims never produce.
-/

namespace Flipper

/-- The persisted record (`FlipperIRSignal` dataclass). -/
structure FlipperIRSignal where
  name : String
  signal_type : String
  protocol : Option String
  address : Option String
  command : Option String
  frequency : Option Int
  duty_cycle : Option Int
  data : Option (List Int)
deriving DecidableEq

/-- Decimal digit character. -/
def digitChar (n : Nat) : Char :=
  match n with
  | 0 => '0' | 1 => '1' | 2 => '2' | 3 => '3' | 4 => '4'
  | 5 => '5' | 6 => '6' | 7 => '7' | 8 => '8' | 9 => '9'
  | _ => '0'

/-- Decimal digits of `n`, most significant first (fuelled recursion). -/
def natToCharsAux : Nat → Nat → List Char
  | 0, _ => []
  | fuel + 1, n =>
    if n < 10 then [digitChar n]
    else natToCharsAux fuel (n / 10) ++ [digitChar (n % 10)]

def natToChars (n : Nat) : List Char := natToCharsAux (n + 1) n

/-- Python `str(i)` for an integer. -/
def intToChars (i : Int) : List Char :=
  if i < 0 then '-' :: natToChars i.natAbs else natToChars i.toNat

/-- Python `f"{d:.6f}"` for a duty cycle of `micro` millionths. -/
def formatMicro6 (micro : Int) : List Char :=
  let m := micro.natAbs
  let frac := natToChars (m % 1000000)
  (if micro < 0 then ['-'] else []) ++ natToChars (m / 1000000) ++
    '.' :: (List.replicate (6 - frac.length) '0' ++ frac)

/-- `" ".join(tokens)`. -/
def joinSpace : List (List Char) → List Char
  | [] => []
  | [x] => x
  | x :: y :: rest => x ++ ' ' :: joinSpace (y :: rest)

/-- The `key: value` lines one signal block emits (after `#`), in order. -/
def sigKVs (s : FlipperIRSignal) : List (String × List Char) :=
  [("name", s.name.data), ("type", s.signal_type.data)] ++
  (if s.signal_type = "parsed" then
    (match s.protocol with
      | some p => if p ≠ "" then [("protocol", p.data)] else []
      | none => []) ++
    (match s.address with
      | some a => if a ≠ "" then [("address", a.data)] else []
      | none => []) ++
    (match s.command with
      | some c => if c ≠ "" then [("command", c.data)] else []
      | none => [])
  else
    (match s.frequency with
      | some f => [("frequency", intToChars f)]
      | none => []) ++
    (match s.duty_cycle with
      | some d => [("duty_cycle", formatMicro6 d)]
      | none => []) ++
    (match s.data with
      | some l => if l ≠ [] then [("data", joinSpace (l.map intToChars))] else []
      | none => []))

def mkLine (k : String) (v : List Char) : List Char := k.data ++ ':' :: ' ' :: v

/-- One block: the `#` separator line then the `key: value` lines. -/
def sigLines (s : FlipperIRSignal) : List (List Char) :=
  ['#'] :: (sigKVs s).map (fun kv => mkLine kv.1 kv.2)

/-- All lines: a blank line before every block except the first
(`HEADER_LINES` is empty). -/
def signalsLines : List FlipperIRSignal → List (List Char)
  | [] => []
  | s :: rest => sigLines s ++ rest.flatMap (fun t => [] :: sigLines t)

/-- `"\n".join(lines)`. -/
def joinNL : List (List Char) → List Char
  | [] => []
  | [l] => l
  | l :: l2 :: rest => l ++ '\n' :: joinNL (l2 :: rest)

/-- `serialize_signals(signals)`: newline-joined lines plus a final newline. -/
def serialize_signals (signals : List FlipperIRSignal) : String :=
  ⟨joinNL (signalsLines signals) ++ ['\n']⟩

/-- Lines of a text, split at newline characters.  (The empty text yields one
empty line where Python `splitlines` yields none; blank lines are skipped by
the parser, so `parse_signals` is unaffected.) -/
def splitLinesChar : List Char → List (List Char)
  | [] => [[]]
  | c :: rest =>
    if c = '\n' then [] :: splitLinesChar rest
    else
      match splitLinesChar rest with
      | [] => [[c]]
      | l :: ls => (c :: l) :: ls

/-- Payload dictionary: overwrite-on-insert association list. -/
def plInsert (p : List (String × String)) (k v : String) : List (String × String) :=
  p.filter (fun kv => kv.1 != k) ++ [(k, v)]

def plGet (p : List (String × String)) (k : String) : Option String :=
  (p.find? (fun kv => kv.1 == k)).map (fun kv => kv.2)

def isDigitChar (c : Char) : Bool := decide (48 ≤ c.toNat ∧ c.toNat ≤ 57)

def digitsVal (cs : List Char) : Nat := cs.foldl (fun a c => a * 10 + (c.toNat - 48)) 0

/-- Digit run acceptable to `int(value, 0)`: non-empty, no leading zero
except for `"0"` itself. -/
def parseBase0Nat (cs : List Char) : Option Nat :=
  if cs ≠ [] ∧ (∀ c ∈ cs, isDigitChar c = true) ∧ (cs.headD '0' ≠ '0' ∨ cs = ['0'])
  then some (digitsVal cs) else none

/-- Python `int(value, 0)` on signed decimal numerals (see file note). -/
def parsePyIntBase0 (s : String) : Option Int :=
  match s.data with
  | [] => none
  | c :: rest =>
    if c = '-' then (parseBase0Nat rest).map (fun n => -(n : Int))
    else (parseBase0Nat (c :: rest)).map (fun n => (n : Int))

def parse10Nat (cs : List Char) : Option Nat :=
  if cs ≠ [] ∧ (∀ c ∈ cs, isDigitChar c = true) then some (digitsVal cs) else none

/-- Python `int(value)` on signed decimal numerals (see file note). -/
def parsePyInt10 (s : String) : Option Int :=
  match s.data with
  | [] => none
  | c :: rest =>
    if c = '-' then (parse10Nat rest).map (fun n => -(n : Int))
    else if c = '+' then (parse10Nat rest).map (fun n => (n : Int))
    else (parse10Nat (c :: rest)).map (fun n => (n : Int))

/-- Fixed-point decimal with at most 6 fractional digits, in millionths. -/
def parseFixed6 (cs : List Char) : Option Nat :=
  let intPart := cs.takeWhile (fun c => c != '.')
  let rest := cs.dropWhile (fun c => c != '.')
  match rest with
  | [] =>
    if intPart ≠ [] ∧ (∀ c ∈ intPart, isDigitChar c = true)
    then some (digitsVal intPart * 1000000) else none
  | _ :: frac =>
    if (intPart ≠ [] ∨ frac ≠ []) ∧ (∀ c ∈ intPart, isDigitChar c = true) ∧
        (∀ c ∈ frac, isDigitChar c = true) ∧ frac.length ≤ 6
    then some (digitsVal intPart * 1000000 + digitsVal frac * 10 ^ (6 - frac.length))
    else none

/-- Python `float(value)` on fixed-point decimals, in millionths (see file
note). -/
def parsePyFloatMicro (s : String) : Option Int :=
  match s.data with
  | [] => none
  | c :: rest =>
    if c = '-' then (parseFixed6 rest).map (fun n => -(n : Int))
    else (parseFixed6 (c :: rest)).map (fun n => (n : Int))

/-- Python `str.split()` (whitespace tokenization, empty tokens dropped). -/
def splitWsAux : List Char → List Char → List (List Char)
  | [], acc => if acc ≠ [] then [acc.reverse] else []
  | c :: rest, acc =>
    if Lirc.isPySpace c then
      (if acc ≠ [] then acc.reverse :: splitWsAux rest [] else splitWsAux rest [])
    else splitWsAux rest (c :: acc)

def splitWs (cs : List Char) : List (List Char) := splitWsAux cs []

/-- `_optional_str(value)`. -/
def optional_str (o : Option String) : Option String :=
  o.bind (fun s =>
    let t : String := ⟨Lirc.pyStrip s.data⟩
    if t = "" then none else some t)

/-- `_build_signal(payload)`. -/
def build_signal (payload : List (String × String)) : FlipperIRSignal :=
  let signal_type := (plGet payload "type").getD "parsed"
  let data : Option (List Int) :=
    if signal_type ≠ "parsed" then
      (plGet payload "data").map
        (fun v => (splitWs v.data).filterMap (fun t => parsePyIntBase0 ⟨t⟩))
    else none
  { name := (plGet payload "name").getD "Unknown"
    signal_type := signal_type
    protocol := optional_str (plGet payload "protocol")
    address := optional_str (plGet payload "address")
    command := optional_str (plGet payload "command")
    frequency := (plGet payload "frequency").bind parsePyInt10
    duty_cycle := (plGet payload "duty_cycle").bind parsePyFloatMicro
    data := data }

def ACCEPTED1 : List Char := "Filetype: IR library file".data
def ACCEPTED2 : List Char := "Filetype: IR signals file".data
def VERSION1 : List Char := "Version: 1".data

/-- The line loop of `parse_signals`. -/
def parseLinesAux : List (List Char) → List (String × String) → List FlipperIRSignal
  | [], current => if current ≠ [] then [build_signal current] else []
  | line :: rest, current =>
    let stripped := Lirc.pyStrip line
    if stripped = [] then parseLinesAux rest current
    else if stripped = ACCEPTED1 ∨ stripped = ACCEPTED2 ∨ stripped = VERSION1 then
      parseLinesAux rest current
    else if stripped.headD ' ' = '#' then
      (if current ≠ [] then build_signal current :: parseLinesAux rest []
       else parseLinesAux rest [])
    else if ¬ stripped.contains ':' then parseLinesAux rest current
    else
      parseLinesAux rest (plInsert current
        ⟨Lirc.pyStrip (stripped.takeWhile (fun c => c != ':'))⟩
        ⟨Lirc.pyStrip ((stripped.dropWhile (fun c => c != ':')).tail)⟩)

/-- `parse_signals(text)`. -/
def parse_signals (text : String) : List FlipperIRSignal :=
  parseLinesAux (splitLinesChar text.data) []

/-- Printable-ASCII contents: rules out newlines and the further Unicode
whitespace Python's `strip`/`splitlines` also react to. -/
def asciiClean (cs : List Char) : Prop := ∀ c ∈ cs, 32 ≤ c.toNat ∧ c.toNat ≤ 126

def trimStable (cs : List Char) : Prop := Lirc.pyStrip cs = cs

def goodStr (s : String) : Prop := asciiClean s.data ∧ trimStable s.data

def goodOptField : Option String → Prop
  | none => True
  | some v => goodStr v ∧ v ≠ ""

/-- Well-formed persisted record: printable trim-stable strings, and exactly
the fields of its kind populated (the serializer omits the others, so records
violating this cannot round-trip verbatim). -/
def WF (s : FlipperIRSignal) : Prop :=
  goodStr s.name ∧ goodStr s.signal_type ∧
    (s.signal_type = "parsed" →
      goodOptField s.protocol ∧ goodOptField s.address ∧ goodOptField s.command ∧
      s.frequency = none ∧ s.duty_cycle = none ∧ s.data = none) ∧
    (s.signal_type ≠ "parsed" →
      s.protocol = none ∧ s.address = none ∧ s.command = none ∧ s.data ≠ some [])

instance (s : String) : Decidable (goodStr s) :=
  inferInstanceAs (Decidable ((∀ c ∈ s.data, 32 ≤ c.toNat ∧ c.toNat ≤ 126) ∧
    Lirc.pyStrip s.data = s.data))

instance : ∀ o : Option String, Decidable (goodOptField o)
  | none => isTrue trivial
  | some v => inferInstanceAs (Decidable (goodStr v ∧ v ≠ ""))

instance (s : FlipperIRSignal) : Decidable (WF s) :=
  inferInstanceAs (Decidable (_ ∧ _ ∧ _ ∧ _))

end Flipper

namespace Flipper

/-! ### String lemmas for the persistence round trip (C9) -/

theorem length_dropWhile_le (p : Char → Bool) (l : List Char) :
    (l.dropWhile p).length ≤ l.length := by
  induction l with
  | nil => simp
  | cons a t ih =>
    rw [List.dropWhile_cons]
    split
    · simp only [List.length_cons]
      omega
    · simp

theorem dropWhile_eq_self_of_head (p : Char → Bool) (l : List Char)
    (h : ∀ c, l.head? = some c → p c = false) : l.dropWhile p = l := by
  cases l with
  | nil => rfl
  | cons a t => rw [List.dropWhile_cons, h a rfl]; simp

theorem dropWhile_length_eq_self (p : Char → Bool) (l : List Char)
    (h : (l.dropWhile p).length = l.length) : l.dropWhile p = l := by
  cases l with
  | nil => rfl
  | cons a t =>
    rw [List.dropWhile_cons] at h ⊢
    split at h
    · exfalso
      have h1 := length_dropWhile_le p t
      rw [List.length_cons] at h
      omega
    · next hpa => rw [if_neg (by simp [hpa])]

/-- A trim-stable character list is unchanged by either one-sided strip. -/
theorem trimStable_both {v : List Char} (h : trimStable v) :
    v.dropWhile Lirc.isPySpace = v ∧ v.reverse.dropWhile Lirc.isPySpace = v.reverse := by
  rw [trimStable, Lirc.pyStrip] at h
  have hlen1 := length_dropWhile_le Lirc.isPySpace v
  have hlen2 := length_dropWhile_le Lirc.isPySpace (v.dropWhile Lirc.isPySpace).reverse
  have hlenh : (((v.dropWhile Lirc.isPySpace).reverse.dropWhile
      Lirc.isPySpace).reverse).length = v.length := by rw [h]
  simp only [List.length_reverse] at hlen2 hlenh
  have e1 : (v.dropWhile Lirc.isPySpace).length = v.length := by omega
  have hdw : v.dropWhile Lirc.isPySpace = v := dropWhile_length_eq_self _ _ e1
  rw [hdw] at h
  refine ⟨hdw, ?_⟩
  have := congrArg List.reverse h
  rwa [List.reverse_reverse] at this

theorem trimStable_head {v : List Char} (h : trimStable v) :
    ∀ c, v.head? = some c → Lirc.isPySpace c = false := by
  intro c hc
  obtain ⟨t, rfl⟩ : ∃ t, v = c :: t := by
    cases v with
    | nil => simp at hc
    | cons a t =>
      simp only [List.head?_cons, Option.some.injEq] at hc
      exact ⟨t, by rw [hc]⟩
  have hd := (trimStable_both h).1
  rw [List.dropWhile_cons] at hd
  cases hb : Lirc.isPySpace c
  · rfl
  · rw [hb] at hd
    simp at hd
    have := length_dropWhile_le Lirc.isPySpace t
    have := congrArg List.length hd
    simp at this
    omega

theorem trimStable_last {v : List Char} (h : trimStable v) :
    ∀ c, v.getLast? = some c → Lirc.isPySpace c = false := by
  intro c hc
  have hrev : v.reverse.head? = some c := by rw [List.head?_reverse]; exact hc
  obtain ⟨t, ht⟩ : ∃ t, v.reverse = c :: t := by
    cases hv : v.reverse with
    | nil => rw [hv] at hrev; simp at hrev
    | cons a u =>
      rw [hv] at hrev
      simp at hrev
      exact ⟨u, by rw [hrev]⟩
  have hd := (trimStable_both h).2
  rw [ht, List.dropWhile_cons] at hd
  cases hb : Lirc.isPySpace c
  · rfl
  · rw [hb] at hd
    simp at hd
    have := length_dropWhile_le Lirc.isPySpace t
    have := congrArg List.length hd
    simp at this
    omega

end Flipper

namespace Flipper

theorem pyStrip_no_ws_ends (cs : List Char)
    (hh : ∀ c, cs.head? = some c → Lirc.isPySpace c = false)
    (hl : ∀ c, cs.getLast? = some c → Lirc.isPySpace c = false) :
    Lirc.pyStrip cs = cs := by
  unfold Lirc.pyStrip
  rw [dropWhile_eq_self_of_head _ _ hh]
  rw [dropWhile_eq_self_of_head _ _ (fun c hc => hl c (by rwa [List.head?_reverse] at hc))]
  exact List.reverse_reverse cs

theorem pyStrip_trailing_space (xs : List Char)
    (hh : ∀ c, xs.head? = some c → Lirc.isPySpace c = false) :
    Lirc.pyStrip (xs ++ [' ']) = Lirc.pyStrip xs := by
  cases xs with
  | nil => rfl
  | cons x xt =>
    unfold Lirc.pyStrip
    have hx : Lirc.isPySpace x = false := hh x rfl
    have h1 : ((x :: xt) ++ [' ']).dropWhile Lirc.isPySpace = (x :: xt) ++ [' '] := by
      apply dropWhile_eq_self_of_head
      intro c hc
      simp at hc
      rw [hc] at hx
      exact hx
    have h2 : (x :: xt).dropWhile Lirc.isPySpace = x :: xt := by
      apply dropWhile_eq_self_of_head
      intro c hc
      simp at hc
      rw [hc] at hx
      exact hx
    rw [h1, h2]
    have h3 : ((x :: xt) ++ [' ']).reverse = ' ' :: (x :: xt).reverse := by
      rw [List.reverse_append]
      rfl
    rw [h3, List.dropWhile_cons]
    rw [show Lirc.isPySpace ' ' = true from rfl]
    simp

/-- Stripping one serialized `key: value` line: the key's head is non-space
and the value is trim-stable, so only the separator space after the colon is
stripped (when the value is empty). -/
theorem strip_kv_line (kd v : List Char) (hkd : kd ≠ [])
    (hhead : ∀ c, kd.head? = some c → Lirc.isPySpace c = false) (hv : trimStable v) :
    Lirc.pyStrip (kd ++ ':' :: ' ' :: v) =
      kd ++ ':' :: (if v = [] then [] else ' ' :: v) := by
  obtain ⟨k0, kt, rfl⟩ : ∃ k0 kt, kd = k0 :: kt := by
    cases kd with
    | nil => exact absurd rfl hkd
    | cons k0 kt => exact ⟨k0, kt, rfl⟩
  cases hve : v with
  | nil =>
    rw [if_pos rfl]
    have he : (k0 :: kt) ++ ':' :: ' ' :: ([] : List Char) =
        ((k0 :: kt) ++ [':']) ++ [' '] := by simp
    rw [he, pyStrip_trailing_space _ (by
      intro c hc
      simp at hc
      exact hhead c (by rw [hc]; rfl))]
    apply pyStrip_no_ws_ends
    · intro c hc
      simp at hc
      exact hhead c (by rw [hc]; rfl)
    · intro c hc
      rw [List.getLast?_append] at hc
      simp at hc
      rw [← hc]
      rfl
  | cons c0 t0 =>
    rw [if_neg (by simp)]
    apply pyStrip_no_ws_ends
    · intro c hc
      simp at hc
      exact hhead c (by rw [hc]; rfl)
    · intro c hc
      rw [show (k0 :: kt) ++ ':' :: ' ' :: c0 :: t0 =
        ((k0 :: kt) ++ [':', ' ']) ++ (c0 :: t0) from by simp] at hc
      rw [List.getLast?_append] at hc
      rw [show ((c0 : Char) :: t0).getLast? = v.getLast? from by rw [hve]] at hc
      have hlast := trimStable_last hv
      cases hg : v.getLast? with
      | none =>
        rw [hg] at hc
        rw [hve] at hg
        simp at hg
      | some d =>
        rw [hg] at hc
        simp at hc
        rw [← hc]
        exact hlast d hg

end Flipper

namespace Flipper

theorem pyStrip_cons_space (v : List Char) : Lirc.pyStrip (' ' :: v) = Lirc.pyStrip v := by
  unfold Lirc.pyStrip
  rw [List.dropWhile_cons]
  rw [show Lirc.isPySpace ' ' = true from rfl]
  simp

theorem takeWhile_colon (kd : List Char) (h : ∀ c ∈ kd, (c != ':') = true) (tail : List Char) :
    (kd ++ ':' :: tail).takeWhile (fun c => c != ':') = kd ∧
      (kd ++ ':' :: tail).dropWhile (fun c => c != ':') = ':' :: tail := by
  induction kd with
  | nil =>
    constructor
    · simp [List.takeWhile_cons]
    · simp [List.dropWhile_cons]
  | cons k kt ih =>
    have hk := h k (List.mem_cons_self _ _)
    have iht := ih (fun c hc => h c (List.mem_cons_of_mem _ hc))
    constructor
    · rw [List.cons_append, List.takeWhile_cons, hk]
      simp only [if_true]
      rw [iht.1]
    · rw [List.cons_append, List.dropWhile_cons, hk]
      simp only [if_true]
      rw [iht.2]

/-- Processing one serialized `key: value` line of a block: it neither
flushes nor is skipped, and inserts `(key, value)` into the payload. -/
theorem parse_step_generic (kd v : List Char) (rest : List (List Char))
    (cur : List (String × String))
    (h1 : kd ≠ [])
    (h2 : ∀ c, kd.head? = some c → Lirc.isPySpace c = false)
    (h3 : kd.headD ' ' ≠ 'F') (h4 : kd.headD ' ' ≠ 'V') (h5 : kd.headD ' ' ≠ '#')
    (h6 : ∀ c ∈ kd, (c != ':') = true)
    (h7 : Lirc.pyStrip kd = kd)
    (hv : trimStable v) :
    parseLinesAux ((kd ++ ':' :: ' ' :: v) :: rest) cur =
      parseLinesAux rest (plInsert cur ⟨kd⟩ ⟨v⟩) := by
  obtain ⟨k0, kt, rfl⟩ : ∃ k0 kt, kd = k0 :: kt := by
    cases kd with
    | nil => exact absurd rfl h1
    | cons k0 kt => exact ⟨k0, kt, rfl⟩
  have hk0F : k0 ≠ 'F' := by simpa using h3
  have hk0V : k0 ≠ 'V' := by simpa using h4
  have hk0H : k0 ≠ '#' := by simpa using h5
  rw [parseLinesAux]
  rw [strip_kv_line (k0 :: kt) v (by simp) h2 hv]
  rw [if_neg (by simp)]
  rw [if_neg (by
    intro hor
    rcases hor with hA | hA | hA
    · obtain ⟨t, ht⟩ : ∃ t, ACCEPTED1 = 'F' :: t := ⟨_, rfl⟩
      rw [ht] at hA
      simp at hA
      exact hk0F hA.1
    · obtain ⟨t, ht⟩ : ∃ t, ACCEPTED2 = 'F' :: t := ⟨_, rfl⟩
      rw [ht] at hA
      simp at hA
      exact hk0F hA.1
    · obtain ⟨t, ht⟩ : ∃ t, VERSION1 = 'V' :: t := ⟨_, rfl⟩
      rw [ht] at hA
      simp at hA
      exact hk0V hA.1)]
  rw [if_neg (by simpa using hk0H)]
  rw [if_neg (by
    intro hn
    exact hn (by simp))]
  rw [(takeWhile_colon (k0 :: kt) h6 _).1, (takeWhile_colon (k0 :: kt) h6 _).2]
  rw [h7]
  cases hve : v with
  | nil =>
    rw [if_pos rfl]
    rfl
  | cons c0 t0 =>
    rw [if_neg (by simp)]
    simp only [List.tail_cons]
    rw [pyStrip_cons_space]
    rw [hve] at hv
    rw [hv]

/-- `parse_step_generic` instantiated at the eight field keys the serializer
emits. -/
theorem parse_step (k : String)
    (hk : k ∈ (["name", "type", "protocol", "address", "command", "frequency",
      "duty_cycle", "data"] : List String))
    (v : List Char) (hv : trimStable v) (rest : List (List Char))
    (cur : List (String × String)) :
    parseLinesAux (mkLine k v :: rest) cur = parseLinesAux rest (plInsert cur k ⟨v⟩) := by
  fin_cases hk <;>
    exact parse_step_generic _ v rest cur (by decide) (by decide) (by decide) (by decide)
      (by decide) (by decide) (by decide) hv

end Flipper

namespace Flipper

theorem digitChar_spec : ∀ n < 10, isDigitChar (digitChar n) = true ∧
    (digitChar n).toNat - 48 = n ∧ 48 ≤ (digitChar n).toNat ∧ (digitChar n).toNat ≤ 57 ∧
    (digitChar n = '0' ↔ n = 0) := by decide

theorem headD_append_of_ne_nil {l1 l2 : List Char} (h : l1 ≠ []) (d : Char) :
    (l1 ++ l2).headD d = l1.headD d := by
  cases l1 with
  | nil => exact absurd rfl h
  | cons a t => rfl

theorem decAux_spec : ∀ fuel n : Nat, 0 < fuel → n < 10 ^ fuel →
    (∀ c ∈ natToCharsAux fuel n, isDigitChar c = true) ∧
    natToCharsAux fuel n ≠ [] ∧
    (∀ a : Nat, (natToCharsAux fuel n).foldl (fun a c => a * 10 + (c.toNat - 48)) a =
      a * 10 ^ (natToCharsAux fuel n).length + n) ∧
    (1 ≤ n → (natToCharsAux fuel n).headD '0' ≠ '0') := by
  intro fuel
  induction fuel with
  | zero => intro n h _; omega
  | succ f ih =>
    intro n _ hn
    rw [natToCharsAux]
    split
    · next h10 =>
      refine ⟨?_, by simp, ?_, ?_⟩
      · intro c hc
        have hce : c = digitChar n := by simpa using hc
        subst hce
        exact (digitChar_spec n h10).1
      · intro a
        simp only [List.foldl_cons, List.foldl_nil, List.length_cons, List.length_nil]
        rw [(digitChar_spec n h10).2.1]
        norm_num
      · intro hn1
        simp only [List.headD_cons]
        intro hz
        have := ((digitChar_spec n h10).2.2.2.2).mp hz
        omega
    · next h10 =>
      have hf : 0 < f := by
        rcases Nat.eq_zero_or_pos f with rfl | h
        · simp at hn; omega
        · exact h
      have hdiv : n / 10 < 10 ^ f := by
        have hp : 10 ^ (f + 1) = 10 ^ f * 10 := pow_succ 10 f
        rw [hp] at hn
        omega
      obtain ⟨hdig, hne, hval, hhead⟩ := ih (n / 10) hf hdiv
      have hm10 : n % 10 < 10 := by omega
      refine ⟨?_, by simp, ?_, ?_⟩
      · intro c hc
        rcases List.mem_append.mp hc with h1 | h2
        · exact hdig c h1
        · have hce : c = digitChar (n % 10) := by simpa using h2
          subst hce
          exact (digitChar_spec _ hm10).1
      · intro a
        rw [List.foldl_append]
        simp only [List.foldl_cons, List.foldl_nil]
        rw [hval a, (digitChar_spec _ hm10).2.1]
        simp only [List.length_append, List.length_cons, List.length_nil]
        have harr : (natToCharsAux f (n / 10)).length + (0 + 1) =
            (natToCharsAux f (n / 10)).length + 1 := by omega
        rw [harr, pow_succ, ← mul_assoc]
        omega
      · intro _
        rw [headD_append_of_ne_nil hne]
        exact hhead (by omega)

theorem natToChars_spec (n : Nat) :
    (∀ c ∈ natToChars n, isDigitChar c = true) ∧ natToChars n ≠ [] ∧
      digitsVal (natToChars n) = n ∧ (1 ≤ n → (natToChars n).headD '0' ≠ '0') := by
  have hfuel : n < 10 ^ (n + 1) :=
    lt_of_lt_of_le (Nat.lt_pow_self (by norm_num) n) (Nat.pow_le_pow_right (by norm_num) (by omega))
  obtain ⟨h1, h2, h3, h4⟩ := decAux_spec (n + 1) n (by omega) hfuel
  refine ⟨h1, h2, ?_, h4⟩
  have := h3 0
  simpa [digitsVal] using this

theorem decAux_len : ∀ fuel n k : Nat, 1 ≤ k → n < 10 ^ k →
    (natToCharsAux fuel n).length ≤ k := by
  intro fuel
  induction fuel with
  | zero => intro n k hk _; simp [natToCharsAux]
  | succ f ih =>
    intro n k hk hn
    rw [natToCharsAux]
    split
    · simpa using hk
    · next h10 =>
      have hk2 : 2 ≤ k := by
        by_contra hlt
        have hk1 : k = 1 := by omega
        subst hk1
        simp at hn
        omega
      have hp : 10 ^ k = 10 ^ (k - 1) * 10 := by
        rw [← pow_succ]
        congr 1
        omega
      have hdiv : n / 10 < 10 ^ (k - 1) := by
        rw [hp] at hn
        omega
      have := ih (n / 10) (k - 1) (by omega) hdiv
      simp only [List.length_append, List.length_cons, List.length_nil]
      omega

theorem natToChars_len (n k : Nat) (hk : 1 ≤ k) (hn : n < 10 ^ k) :
    (natToChars n).length ≤ k :=
  decAux_len (n + 1) n k hk hn

theorem parseBase0_natToChars (n : Nat) : parseBase0Nat (natToChars n) = some n := by
  obtain ⟨hdig, hne, hval, hhead⟩ := natToChars_spec n
  have hcond : natToChars n ≠ [] ∧ (∀ c ∈ natToChars n, isDigitChar c = true) ∧
      ((natToChars n).headD '0' ≠ '0' ∨ natToChars n = ['0']) := by
    refine ⟨hne, hdig, ?_⟩
    rcases Nat.eq_zero_or_pos n with rfl | hpos
    · right
      rfl
    · left
      exact hhead hpos
  unfold parseBase0Nat
  rw [if_pos hcond, hval]

theorem parse10_natToChars (n : Nat) : parse10Nat (natToChars n) = some n := by
  obtain ⟨hdig, hne, hval, _⟩ := natToChars_spec n
  unfold parse10Nat
  rw [if_pos ⟨hne, hdig⟩, hval]

theorem digit_char_facts (c : Char) (h : isDigitChar c = true) :
    c ≠ '-' ∧ c ≠ '+' ∧ (c != '.') = true ∧ Lirc.isPySpace c = false ∧ c ≠ '\n' := by
  have hb : 48 ≤ c.toNat ∧ c.toNat ≤ 57 := by
    simpa [isDigitChar] using h
  have hne : ∀ d : Char, c.toNat ≠ d.toNat → c ≠ d := by
    intro d hd he
    exact hd (congrArg Char.toNat he)
  have hbeq : ∀ d : Char, c.toNat ≠ d.toNat → (c == d) = false := by
    intro d hd
    cases hcd : c == d
    · rfl
    · exact absurd (congrArg Char.toNat (eq_of_beq hcd)) hd
  have t1 : ('-' : Char).toNat = 45 := rfl
  have t2 : ('+' : Char).toNat = 43 := rfl
  have t3 : ('.' : Char).toNat = 46 := rfl
  have t4 : (' ' : Char).toNat = 32 := rfl
  have t5 : ('\t' : Char).toNat = 9 := rfl
  have t6 : ('\n' : Char).toNat = 10 := rfl
  have t7 : ('\r' : Char).toNat = 13 := rfl
  have t8 : ('\x0b' : Char).toNat = 11 := rfl
  have t9 : ('\x0c' : Char).toNat = 12 := rfl
  refine ⟨hne '-' (by omega), hne '+' (by omega), ?_, ?_, hne '\n' (by omega)⟩
  · have := hbeq '.' (by omega)
    simp only [bne, this]
    rfl
  · unfold Lirc.isPySpace
    rw [hbeq ' ' (by omega), hbeq '\t' (by omega), hbeq '\n' (by omega),
      hbeq '\r' (by omega), hbeq '\x0b' (by omega), hbeq '\x0c' (by omega)]
    rfl

theorem takeWhile_dot (kd : List Char) (h : ∀ c ∈ kd, (c != '.') = true) (tail : List Char) :
    (kd ++ '.' :: tail).takeWhile (fun c => c != '.') = kd ∧
      (kd ++ '.' :: tail).dropWhile (fun c => c != '.') = '.' :: tail := by
  induction kd with
  | nil =>
    constructor
    · simp [List.takeWhile_cons]
    · simp [List.dropWhile_cons]
  | cons k kt ih =>
    have hk := h k (List.mem_cons_self _ _)
    have iht := ih (fun c hc => h c (List.mem_cons_of_mem _ hc))
    constructor
    · rw [List.cons_append, List.takeWhile_cons, hk]
      simp only [if_true]
      rw [iht.1]
    · rw [List.cons_append, List.dropWhile_cons, hk]
      simp only [if_true]
      rw [iht.2]

theorem fold_pad10 (k : Nat) :
    ∀ a : Nat, (List.replicate k '0').foldl (fun acc c => acc * 10 + (c.toNat - 48)) a =
      a * 10 ^ k := by
  induction k with
  | zero => intro a; simp
  | succ k ih =>
    intro a
    rw [List.replicate_succ, List.foldl_cons, ih]
    rw [show ('0' : Char).toNat - 48 = 0 from rfl, pow_succ]
    ring

theorem digitsVal_pad (k : Nat) (ds : List Char) :
    digitsVal (List.replicate k '0' ++ ds) = digitsVal ds := by
  unfold digitsVal
  rw [List.foldl_append, fold_pad10 k 0]
  norm_num

theorem parsePyIntBase0_intToChars (i : Int) : parsePyIntBase0 ⟨intToChars i⟩ = some i := by
  by_cases hneg : i < 0
  · have h1 : intToChars i = '-' :: natToChars i.natAbs := by
      rw [intToChars, if_pos hneg]
    have h2 : parsePyIntBase0 ⟨'-' :: natToChars i.natAbs⟩ =
        (parseBase0Nat (natToChars i.natAbs)).map (fun n => -(n : Int)) := rfl
    rw [h1, h2, parseBase0_natToChars]
    simp only [Option.bind_eq_bind, Option.some_bind, Option.pure_def, Option.map_some']
    congr 1
    omega
  · have h1 : intToChars i = natToChars i.toNat := by
      rw [intToChars, if_neg hneg]
    obtain ⟨hdig, hne, _, _⟩ := natToChars_spec i.toNat
    obtain ⟨c, rest, hcr⟩ : ∃ c rest, natToChars i.toNat = c :: rest := by
      cases hx : natToChars i.toNat with
      | nil => exact absurd hx hne
      | cons c rest => exact ⟨c, rest, rfl⟩
    have hc : isDigitChar c = true := hdig c (by rw [hcr]; exact List.mem_cons_self _ _)
    have h2 : parsePyIntBase0 ⟨c :: rest⟩ =
        if c = '-' then (parseBase0Nat rest).map (fun n => -(n : Int))
        else (parseBase0Nat (c :: rest)).map (fun n => (n : Int)) := rfl
    rw [h1, hcr, h2, if_neg (digit_char_facts c hc).1, ← hcr, parseBase0_natToChars]
    simp only [Option.bind_eq_bind, Option.some_bind, Option.pure_def, Option.map_some']
    congr 1
    omega

theorem parsePyInt10_intToChars (i : Int) : parsePyInt10 ⟨intToChars i⟩ = some i := by
  by_cases hneg : i < 0
  · have h1 : intToChars i = '-' :: natToChars i.natAbs := by
      rw [intToChars, if_pos hneg]
    have h2 : parsePyInt10 ⟨'-' :: natToChars i.natAbs⟩ =
        (parse10Nat (natToChars i.natAbs)).map (fun n => -(n : Int)) := rfl
    rw [h1, h2, parse10_natToChars]
    simp only [Option.bind_eq_bind, Option.some_bind, Option.pure_def, Option.map_some']
    congr 1
    omega
  · have h1 : intToChars i = natToChars i.toNat := by
      rw [intToChars, if_neg hneg]
    obtain ⟨hdig, hne, _, _⟩ := natToChars_spec i.toNat
    obtain ⟨c, rest, hcr⟩ : ∃ c rest, natToChars i.toNat = c :: rest := by
      cases hx : natToChars i.toNat with
      | nil => exact absurd hx hne
      | cons c rest => exact ⟨c, rest, rfl⟩
    have hc : isDigitChar c = true := hdig c (by rw [hcr]; exact List.mem_cons_self _ _)
    have h2 : parsePyInt10 ⟨c :: rest⟩ =
        if c = '-' then (parse10Nat rest).map (fun n => -(n : Int))
        else if c = '+' then (parse10Nat rest).map (fun n => (n : Int))
        else (parse10Nat (c :: rest)).map (fun n => (n : Int)) := rfl
    rw [h1, hcr, h2, if_neg (digit_char_facts c hc).1, if_neg (digit_char_facts c hc).2.1,
      ← hcr, parse10_natToChars]
    simp only [Option.bind_eq_bind, Option.some_bind, Option.pure_def, Option.map_some']
    congr 1
    omega

theorem parseFixed6_split (I frac : List Char) (hIne : I ≠ [])
    (hI : ∀ c ∈ I, isDigitChar c = true) (hfrac : ∀ c ∈ frac, isDigitChar c = true)
    (hlen : frac.length ≤ 6) :
    parseFixed6 (I ++ '.' :: frac) =
      some (digitsVal I * 1000000 + digitsVal frac * 10 ^ (6 - frac.length)) := by
  have hbang : ∀ c ∈ I, (c != '.') = true := fun c hc => (digit_char_facts c (hI c hc)).2.2.1
  obtain ⟨htake, hdrop⟩ := takeWhile_dot I hbang frac
  unfold parseFixed6
  simp only [htake, hdrop]
  rw [if_pos ⟨Or.inl hIne, hI, hfrac, hlen⟩]

theorem parseFixed6_formatMicro (n : Nat) :
    parseFixed6 (natToChars (n / 1000000) ++ '.' ::
      (List.replicate (6 - (natToChars (n % 1000000)).length) '0' ++
        natToChars (n % 1000000))) = some n := by
  have hmod : n % 1000000 < 10 ^ 6 := by
    norm_num
    exact Nat.mod_lt n (by norm_num)
  obtain ⟨hIdig, hIne, hIval, _⟩ := natToChars_spec (n / 1000000)
  obtain ⟨hFdig, _, hFval, _⟩ := natToChars_spec (n % 1000000)
  have hFlen : (natToChars (n % 1000000)).length ≤ 6 :=
    natToChars_len _ 6 (by norm_num) hmod
  have hfracdig : ∀ c ∈ List.replicate (6 - (natToChars (n % 1000000)).length) '0' ++
      natToChars (n % 1000000), isDigitChar c = true := by
    intro c hc
    rcases List.mem_append.mp hc with h1 | h2
    · rw [List.eq_of_mem_replicate h1]
      decide
    · exact hFdig c h2
  have hlen6 : (List.replicate (6 - (natToChars (n % 1000000)).length) '0' ++
      natToChars (n % 1000000)).length = 6 := by
    rw [List.length_append, List.length_replicate]
    omega
  rw [parseFixed6_split _ _ hIne hIdig hfracdig (by omega), hlen6, digitsVal_pad, hIval, hFval]
  norm_num
  omega

theorem parsePyFloatMicro_formatMicro6 (m : Int) : parsePyFloatMicro ⟨formatMicro6 m⟩ = some m := by
  by_cases hneg : m < 0
  · have h1 : formatMicro6 m = '-' :: (natToChars (m.natAbs / 1000000) ++ '.' ::
        (List.replicate (6 - (natToChars (m.natAbs % 1000000)).length) '0' ++
          natToChars (m.natAbs % 1000000))) := by
      rw [formatMicro6]
      simp only [if_pos hneg, List.singleton_append]
      rfl
    have h2 : ∀ X : List Char, parsePyFloatMicro ⟨'-' :: X⟩ =
        (parseFixed6 X).map (fun n => -(n : Int)) := fun X => rfl
    rw [h1, h2, parseFixed6_formatMicro]
    simp only [Option.bind_eq_bind, Option.some_bind, Option.pure_def, Option.map_some']
    congr 1
    omega
  · have h1 : formatMicro6 m = natToChars (m.natAbs / 1000000) ++ '.' ::
        (List.replicate (6 - (natToChars (m.natAbs % 1000000)).length) '0' ++
          natToChars (m.natAbs % 1000000)) := by
      rw [formatMicro6]
      simp only [if_neg hneg, List.nil_append]
    obtain ⟨hIdig, hIne, _, _⟩ := natToChars_spec (m.natAbs / 1000000)
    obtain ⟨c, It, hcr⟩ : ∃ c It, natToChars (m.natAbs / 1000000) = c :: It := by
      cases hx : natToChars (m.natAbs / 1000000) with
      | nil => exact absurd hx hIne
      | cons c It => exact ⟨c, It, rfl⟩
    have hc : isDigitChar c = true := hIdig c (by rw [hcr]; exact List.mem_cons_self _ _)
    have h2 : ∀ (d : Char) (X : List Char), parsePyFloatMicro ⟨d :: X⟩ =
        if d = '-' then (parseFixed6 X).map (fun n => -(n : Int))
        else (parseFixed6 (d :: X)).map (fun n => (n : Int)) := fun d X => rfl
    rw [h1, hcr, List.cons_append, h2, if_neg (digit_char_facts c hc).1, ← List.cons_append,
      ← hcr, parseFixed6_formatMicro]
    simp only [Option.bind_eq_bind, Option.some_bind, Option.pure_def, Option.map_some']
    congr 1
    omega

theorem splitWsAux_token (tok : List Char) (h : ∀ c ∈ tok, Lirc.isPySpace c = false) :
    ∀ rest acc, splitWsAux (tok ++ rest) acc = splitWsAux rest (tok.reverse ++ acc) := by
  induction tok with
  | nil => intro rest acc; simp
  | cons c t ih =>
    intro rest acc
    rw [List.cons_append, splitWsAux, h c (List.mem_cons_self _ _)]
    simp only [Bool.false_eq_true, if_false]
    rw [ih (fun d hd => h d (List.mem_cons_of_mem _ hd)) rest (c :: acc)]
    rw [List.reverse_cons, List.append_assoc]
    rfl

theorem splitWs_join (tokens : List (List Char)) (hne : ∀ t ∈ tokens, t ≠ [])
    (hws : ∀ t ∈ tokens, ∀ c ∈ t, Lirc.isPySpace c = false) :
    splitWs (joinSpace tokens) = tokens := by
  induction tokens with
  | nil => rfl
  | cons x xs ih =>
    have hx : x ≠ [] := hne x (List.mem_cons_self _ _)
    have hxws := hws x (List.mem_cons_self _ _)
    have hxr : x.reverse ≠ [] := by simpa using hx
    cases xs with
    | nil =>
      show splitWsAux (joinSpace [x]) [] = [x]
      rw [show joinSpace [x] = x ++ [] from by simp [joinSpace]]
      rw [splitWsAux_token x hxws [] []]
      rw [splitWsAux, if_pos (by simpa using hxr)]
      simp
    | cons y ys =>
      have ihtail := ih (fun t ht => hne t (List.mem_cons_of_mem _ ht))
        (fun t ht => hws t (List.mem_cons_of_mem _ ht))
      show splitWsAux (joinSpace (x :: y :: ys)) [] = x :: y :: ys
      rw [show joinSpace (x :: y :: ys) = x ++ ' ' :: joinSpace (y :: ys) from rfl]
      rw [splitWsAux_token x hxws _ []]
      rw [splitWsAux, show Lirc.isPySpace ' ' = true from rfl]
      simp only [if_true]
      rw [if_pos (by simpa using hxr)]
      rw [List.append_nil, List.reverse_reverse]
      exact congrArg (x :: ·) ihtail

theorem filterMap_parse_ints (l : List Int) :
    (l.map intToChars).filterMap (fun t => parsePyIntBase0 ⟨t⟩) = l := by
  induction l with
  | nil => rfl
  | cons i t ih =>
    rw [List.map_cons, List.filterMap_cons, parsePyIntBase0_intToChars, ih]

theorem mem_intToChars_facts (i : Int) :
    ∀ c ∈ intToChars i, Lirc.isPySpace c = false ∧ c ≠ '\n' := by
  intro c hc
  have hdash : Lirc.isPySpace '-' = false ∧ ('-' : Char) ≠ '\n' := by decide
  rw [intToChars] at hc
  split at hc
  · rcases List.mem_cons.mp hc with rfl | hmem
    · exact hdash
    · have hd := (natToChars_spec _).1 c hmem
      exact ⟨(digit_char_facts c hd).2.2.2.1, (digit_char_facts c hd).2.2.2.2⟩
  · have hd := (natToChars_spec _).1 c hc
    exact ⟨(digit_char_facts c hd).2.2.2.1, (digit_char_facts c hd).2.2.2.2⟩

theorem mem_formatMicro6_facts (m : Int) :
    ∀ c ∈ formatMicro6 m, Lirc.isPySpace c = false ∧ c ≠ '\n' := by
  intro c hc
  rw [formatMicro6] at hc
  simp only [List.mem_append, List.mem_cons] at hc
  have hdig : isDigitChar c = true →
      Lirc.isPySpace c = false ∧ c ≠ '\n' := fun hd =>
    ⟨(digit_char_facts c hd).2.2.2.1, (digit_char_facts c hd).2.2.2.2⟩
  rcases hc with (hm | hI) | rfl | hfrac
  · split at hm
    · rcases List.mem_singleton.mp hm with rfl
      exact (by decide)
    · simp at hm
  · exact hdig ((natToChars_spec _).1 c hI)
  · exact (by decide)
  · rcases hfrac with hz | hF
    · rw [List.eq_of_mem_replicate hz]
      exact (by decide)
    · exact hdig ((natToChars_spec _).1 c hF)

theorem intToChars_ne_nil (i : Int) : intToChars i ≠ [] := by
  rw [intToChars]
  split
  · simp
  · exact (natToChars_spec _).2.1

theorem noWs_trimStable (v : List Char) (h : ∀ c ∈ v, Lirc.isPySpace c = false) :
    trimStable v := by
  rw [trimStable]
  apply pyStrip_no_ws_ends
  · intro c hc
    exact h c (List.mem_of_mem_head? hc)
  · intro c hc
    exact h c (List.mem_of_mem_getLast? hc)

theorem joinSpace_ne_nil (x : List Char) (xs : List (List Char)) (hx : x ≠ []) :
    joinSpace (x :: xs) ≠ [] := by
  cases xs with
  | nil => exact hx
  | cons y ys =>
    rw [show joinSpace (x :: y :: ys) = x ++ ' ' :: joinSpace (y :: ys) from rfl]
    simp

theorem mem_joinSpace (tokens : List (List Char)) :
    ∀ c ∈ joinSpace tokens, c = ' ' ∨ ∃ t ∈ tokens, c ∈ t := by
  induction tokens with
  | nil => intro c hc; simp [joinSpace] at hc
  | cons x xs ih =>
    intro c hc
    cases xs with
    | nil =>
      right
      exact ⟨x, List.mem_cons_self _ _, by simpa [joinSpace] using hc⟩
    | cons y ys =>
      rw [show joinSpace (x :: y :: ys) = x ++ ' ' :: joinSpace (y :: ys) from rfl] at hc
      rcases List.mem_append.mp hc with hx | hrest
      · exact Or.inr ⟨x, List.mem_cons_self _ _, hx⟩
      · rcases List.mem_cons.mp hrest with rfl | hj
        · exact Or.inl rfl
        · rcases ih c hj with h | ⟨t, ht, hct⟩
          · exact Or.inl h
          · exact Or.inr ⟨t, List.mem_cons_of_mem _ ht, hct⟩

theorem joinSpace_head_mem (x : List Char) (xs : List (List Char)) (hx : x ≠ []) :
    ∀ c, (joinSpace (x :: xs)).head? = some c → c ∈ x := by
  intro c hc
  cases xs with
  | nil =>
    exact List.mem_of_mem_head? (by simpa [joinSpace] using hc)
  | cons y ys =>
    rw [show joinSpace (x :: y :: ys) = x ++ ' ' :: joinSpace (y :: ys) from rfl] at hc
    obtain ⟨x0, xt, rfl⟩ : ∃ x0 xt, x = x0 :: xt := by
      cases x with
      | nil => exact absurd rfl hx
      | cons x0 xt => exact ⟨x0, xt, rfl⟩
    rw [List.cons_append, List.head?_cons] at hc
    rcases Option.some.injEq .. ▸ hc with rfl
    exact List.mem_cons_self _ _

theorem joinSpace_getLast_mem :
    ∀ (xs : List (List Char)) (x : List Char), (∀ t ∈ x :: xs, t ≠ []) →
      ∀ c, (joinSpace (x :: xs)).getLast? = some c → ∃ t ∈ x :: xs, c ∈ t := by
  intro xs
  induction xs with
  | nil =>
    intro x _ c hc
    exact ⟨x, List.mem_cons_self _ _, List.mem_of_mem_getLast? (by simpa [joinSpace] using hc)⟩
  | cons y ys ih =>
    intro x hne c hc
    rw [show joinSpace (x :: y :: ys) = x ++ ' ' :: joinSpace (y :: ys) from rfl] at hc
    rw [List.getLast?_append] at hc
    have hj : joinSpace (y :: ys) ≠ [] :=
      joinSpace_ne_nil y ys (hne y (List.mem_cons_of_mem _ (List.mem_cons_self _ _)))
    have hlast : (' ' :: joinSpace (y :: ys)).getLast? = (joinSpace (y :: ys)).getLast? := by
      cases hjj : joinSpace (y :: ys) with
      | nil => exact absurd hjj hj
      | cons a t => rw [List.getLast?_cons_cons]
    rw [hlast] at hc
    have hcons : (joinSpace (y :: ys)).getLast? = some c := by
      cases hg : (joinSpace (y :: ys)).getLast? with
      | none =>
        rw [hg] at hc
        exact absurd hg (by simp [hj])
      | some d =>
        rw [hg] at hc
        simpa using hc
    obtain ⟨t, ht, hct⟩ := ih y (fun t ht => hne t (List.mem_cons_of_mem _ ht)) c hcons
    exact ⟨t, List.mem_cons_of_mem _ ht, hct⟩

theorem joinSpace_trimStable (tokens : List (List Char)) (hne : ∀ t ∈ tokens, t ≠ [])
    (hws : ∀ t ∈ tokens, ∀ c ∈ t, Lirc.isPySpace c = false) :
    trimStable (joinSpace tokens) := by
  cases tokens with
  | nil => rfl
  | cons x xs =>
    rw [trimStable]
    apply pyStrip_no_ws_ends
    · intro c hc
      exact hws x (List.mem_cons_self _ _)
        c (joinSpace_head_mem x xs (hne x (List.mem_cons_self _ _)) c hc)
    · intro c hc
      obtain ⟨t, ht, hct⟩ := joinSpace_getLast_mem xs x hne c hc
      exact hws t ht c hct

theorem splitLines_append (l : List Char) (h : '\n' ∉ l) (cs : List Char) :
    splitLinesChar (l ++ '\n' :: cs) = l :: splitLinesChar cs := by
  induction l with
  | nil =>
    rw [List.nil_append, splitLinesChar, if_pos rfl]
  | cons c t ih =>
    have hc : c ≠ '\n' := fun he => h (he ▸ List.mem_cons_self _ _)
    have iht := ih (fun hm => h (List.mem_cons_of_mem _ hm))
    rw [List.cons_append, splitLinesChar, if_neg hc, iht]

theorem splitLines_noNL (l : List Char) (h : '\n' ∉ l) : splitLinesChar l = [l] := by
  induction l with
  | nil => rfl
  | cons c t ih =>
    have hc : c ≠ '\n' := fun he => h (he ▸ List.mem_cons_self _ _)
    have iht := ih (fun hm => h (List.mem_cons_of_mem _ hm))
    rw [splitLinesChar, if_neg hc, iht]

theorem splitLines_joinNL : ∀ lines : List (List Char), lines ≠ [] →
    (∀ l ∈ lines, '\n' ∉ l) →
    splitLinesChar (joinNL lines ++ ['\n']) = lines ++ [[]] := by
  intro lines
  induction lines with
  | nil => intro h _; exact absurd rfl h
  | cons l ls ih =>
    intro _ hnl
    cases ls with
    | nil =>
      rw [show joinNL [l] = l from rfl]
      rw [show (['\n'] : List Char) = '\n' :: [] from rfl]
      rw [splitLines_append l (hnl l (List.mem_cons_self _ _)) []]
      rfl
    | cons l2 rest =>
      rw [show joinNL (l :: l2 :: rest) = l ++ '\n' :: joinNL (l2 :: rest) from rfl]
      rw [List.append_assoc, List.cons_append]
      rw [splitLines_append l (hnl l (List.mem_cons_self _ _))]
      rw [ih (by simp) (fun x hx => hnl x (List.mem_cons_of_mem _ hx))]
      rfl

theorem plGet_plInsert (p : List (String × String)) (k k2 v : String) :
    plGet (plInsert p k v) k2 = if k2 = k then some v else plGet p k2 := by
  induction p with
  | nil =>
    by_cases hk : k2 = k
    · subst hk
      rw [if_pos rfl]
      show plGet [(k2, v)] k2 = some v
      rw [plGet, List.find?_cons_of_pos _ (by simp)]
      rfl
    · rw [if_neg hk]
      show plGet [(k, v)] k2 = plGet [] k2
      rw [plGet, List.find?_cons_of_neg _ (by simp; exact fun he => hk he.symm)]
      rfl
  | cons q qs ih =>
    by_cases hq : q.1 = k
    · have hfe : plInsert (q :: qs) k v = plInsert qs k v := by
        rw [plInsert, plInsert, List.filter_cons_of_neg (by simp [hq])]
      rw [hfe, ih]
      by_cases hk : k2 = k
      · rw [if_pos hk, if_pos hk]
      · rw [if_neg hk, if_neg hk, plGet, plGet,
          List.find?_cons_of_neg _ (by simp [hq]; exact fun he => hk he.symm)]
    · have hfe : plInsert (q :: qs) k v = q :: plInsert qs k v := by
        rw [plInsert, plInsert, List.filter_cons_of_pos (by simp [hq]), List.cons_append]
      rw [hfe]
      by_cases hmatch : q.1 = k2
      · have hk : ¬ k2 = k := fun he => hq (hmatch.trans he)
        rw [if_neg hk, plGet, plGet, List.find?_cons_of_pos _ (by simp [hmatch]),
          List.find?_cons_of_pos _ (by simp [hmatch])]
      · rw [plGet, List.find?_cons_of_neg _ (by simp [hmatch])]
        rw [show Option.map (fun kv => kv.2)
            (List.find? (fun kv => kv.1 == k2) (plInsert qs k v)) =
            plGet (plInsert qs k v) k2 from rfl]
        rw [ih]
        by_cases hk : k2 = k
        · rw [if_pos hk, if_pos hk]
        · rw [if_neg hk, if_neg hk, plGet, plGet,
            List.find?_cons_of_neg _ (by simp [hmatch])]

theorem parse_blank (rest : List (List Char)) (cur : List (String × String)) :
    parseLinesAux ([] :: rest) cur = parseLinesAux rest cur := by
  rw [parseLinesAux]
  rw [show Lirc.pyStrip ([] : List Char) = [] from rfl]
  rw [if_pos rfl]

theorem parse_hash (rest : List (List Char)) (cur : List (String × String)) :
    parseLinesAux (['#'] :: rest) cur =
      if cur ≠ [] then build_signal cur :: parseLinesAux rest []
      else parseLinesAux rest [] := by
  rw [parseLinesAux]
  rw [show Lirc.pyStrip (['#'] : List Char) = ['#'] from rfl]
  rw [if_neg (by decide), if_neg (by decide), if_pos (by decide)]

theorem parse_kvs (kvs : List (String × List Char))
    (hkeys : ∀ kv ∈ kvs, kv.1 ∈ (["name", "type", "protocol", "address", "command",
      "frequency", "duty_cycle", "data"] : List String))
    (hvals : ∀ kv ∈ kvs, trimStable kv.2) :
    ∀ (rest : List (List Char)) (cur : List (String × String)),
      parseLinesAux (kvs.map (fun kv => mkLine kv.1 kv.2) ++ rest) cur =
        parseLinesAux rest (kvs.foldl (fun p kv => plInsert p kv.1 ⟨kv.2⟩) cur) := by
  induction kvs with
  | nil => intro rest cur; rfl
  | cons kv kvt ih =>
    intro rest cur
    rw [List.map_cons, List.cons_append]
    rw [parse_step kv.1 (hkeys kv (List.mem_cons_self _ _)) kv.2
      (hvals kv (List.mem_cons_self _ _))]
    rw [ih (fun x hx => hkeys x (List.mem_cons_of_mem _ hx))
      (fun x hx => hvals x (List.mem_cons_of_mem _ hx))]
    rfl

def optKV (key : String) (o : Option String) : List (String × List Char) :=
  match o with
  | some p => if p ≠ "" then [(key, p.data)] else []
  | none => []

def numKV (key : String) (o : Option Int) (f : Int → List Char) : List (String × List Char) :=
  match o with
  | some i => [(key, f i)]
  | none => []

def dataKV (o : Option (List Int)) : List (String × List Char) :=
  match o with
  | some l => if l ≠ [] then [("data", joinSpace (l.map intToChars))] else []
  | none => []

/-- The serializer's key/value list, named piecewise. -/
theorem sigKVs_eq (s : FlipperIRSignal) :
    sigKVs s = [("name", s.name.data), ("type", s.signal_type.data)] ++
      (if s.signal_type = "parsed" then
        optKV "protocol" s.protocol ++ optKV "address" s.address ++ optKV "command" s.command
      else
        numKV "frequency" s.frequency intToChars ++
          numKV "duty_cycle" s.duty_cycle formatMicro6 ++ dataKV s.data) := rfl

theorem optKV_keys (key : String) (o : Option String) : ∀ kv ∈ optKV key o, kv.1 = key := by
  intro kv hkv
  match o with
  | none => simp [optKV] at hkv
  | some p =>
    rw [optKV] at hkv
    split at hkv
    · rw [List.mem_singleton.mp hkv]
    · simp at hkv

theorem numKV_keys (key : String) (o : Option Int) (f : Int → List Char) :
    ∀ kv ∈ numKV key o f, kv.1 = key := by
  intro kv hkv
  match o with
  | none => simp [numKV] at hkv
  | some i =>
    rw [numKV] at hkv
    rw [List.mem_singleton.mp hkv]

theorem dataKV_keys (o : Option (List Int)) : ∀ kv ∈ dataKV o, kv.1 = "data" := by
  intro kv hkv
  match o with
  | none => simp [dataKV] at hkv
  | some l =>
    rw [dataKV] at hkv
    split at hkv
    · rw [List.mem_singleton.mp hkv]
    · simp at hkv

def payloadOf (s : FlipperIRSignal) : List (String × String) :=
  (sigKVs s).foldl (fun p kv => plInsert p kv.1 ⟨kv.2⟩) []

theorem plGet_nil (k : String) : plGet [] k = none := rfl

theorem plGet_foldl_ne (key : String) :
    ∀ (kvs : List (String × List Char)), (∀ kv ∈ kvs, kv.1 ≠ key) →
    ∀ cur, plGet (kvs.foldl (fun p kv => plInsert p kv.1 ⟨kv.2⟩) cur) key = plGet cur key := by
  intro kvs
  induction kvs with
  | nil => intro _ cur; rfl
  | cons kv t ih =>
    intro h cur
    rw [List.foldl_cons, ih (fun x hx => h x (List.mem_cons_of_mem _ hx)), plGet_plInsert,
      if_neg (fun he => h kv (List.mem_cons_self _ _) he.symm)]

theorem plInsert_ne_nil (p : List (String × String)) (k v : String) : plInsert p k v ≠ [] := by
  simp [plInsert]

theorem foldl_plInsert_ne_nil :
    ∀ (kvs : List (String × List Char)) (cur : List (String × String)), cur ≠ [] →
      kvs.foldl (fun p kv => plInsert p kv.1 ⟨kv.2⟩) cur ≠ [] := by
  intro kvs
  induction kvs with
  | nil => intro cur h; exact h
  | cons kv t ih =>
    intro cur _
    rw [List.foldl_cons]
    exact ih _ (plInsert_ne_nil _ _ _)

theorem payloadOf_ne_nil (s : FlipperIRSignal) : payloadOf s ≠ [] := by
  rw [payloadOf, sigKVs_eq, List.cons_append, List.foldl_cons]
  exact foldl_plInsert_ne_nil _ _ (plInsert_ne_nil _ _ _)

theorem optKV_mem (key : String) (o : Option String) :
    ∀ kv ∈ optKV key o, ∃ p, o = some p ∧ p ≠ "" ∧ kv = (key, p.data) := by
  intro kv hkv
  match o with
  | none => simp [optKV] at hkv
  | some p =>
    rw [optKV] at hkv
    split at hkv
    · exact ⟨p, rfl, by assumption, List.mem_singleton.mp hkv⟩
    · simp at hkv

theorem numKV_mem (key : String) (o : Option Int) (f : Int → List Char) :
    ∀ kv ∈ numKV key o f, ∃ i, o = some i ∧ kv = (key, f i) := by
  intro kv hkv
  match o with
  | none => simp [numKV] at hkv
  | some i => exact ⟨i, rfl, List.mem_singleton.mp hkv⟩

theorem dataKV_mem (o : Option (List Int)) :
    ∀ kv ∈ dataKV o, ∃ l, o = some l ∧ l ≠ [] ∧
      kv = ("data", joinSpace (l.map intToChars)) := by
  intro kv hkv
  match o with
  | none => simp [dataKV] at hkv
  | some l =>
    rw [dataKV] at hkv
    split at hkv
    · exact ⟨l, rfl, by assumption, List.mem_singleton.mp hkv⟩
    · simp at hkv

theorem sigKVs_tail_keys (s : FlipperIRSignal) :
    ∀ kv ∈ (if s.signal_type = "parsed" then
        optKV "protocol" s.protocol ++ optKV "address" s.address ++ optKV "command" s.command
      else numKV "frequency" s.frequency intToChars ++
        numKV "duty_cycle" s.duty_cycle formatMicro6 ++ dataKV s.data),
      kv.1 = "protocol" ∨ kv.1 = "address" ∨ kv.1 = "command" ∨
        kv.1 = "frequency" ∨ kv.1 = "duty_cycle" ∨ kv.1 = "data" := by
  intro kv hkv
  split at hkv
  · rcases List.mem_append.mp hkv with h | h
    · rcases List.mem_append.mp h with h1 | h1
      · exact Or.inl (optKV_keys _ _ kv h1)
      · exact Or.inr (Or.inl (optKV_keys _ _ kv h1))
    · exact Or.inr (Or.inr (Or.inl (optKV_keys _ _ kv h)))
  · rcases List.mem_append.mp hkv with h | h
    · rcases List.mem_append.mp h with h1 | h1
      · exact Or.inr (Or.inr (Or.inr (Or.inl (numKV_keys _ _ _ kv h1))))
      · exact Or.inr (Or.inr (Or.inr (Or.inr (Or.inl (numKV_keys _ _ _ kv h1)))))
    · exact Or.inr (Or.inr (Or.inr (Or.inr (Or.inr (dataKV_keys _ kv h)))))

theorem sigKVs_keys (s : FlipperIRSignal) :
    ∀ kv ∈ sigKVs s, kv.1 ∈ (["name", "type", "protocol", "address", "command",
      "frequency", "duty_cycle", "data"] : List String) := by
  intro kv hkv
  rw [sigKVs_eq] at hkv
  rcases List.mem_append.mp hkv with h | h
  · rcases List.mem_cons.mp h with rfl | h2
    · exact List.mem_cons_self _ _
    · rw [List.mem_singleton.mp h2]
      exact List.mem_cons_of_mem _ (List.mem_cons_self _ _)
  · rcases sigKVs_tail_keys s kv h with h1 | h1 | h1 | h1 | h1 | h1 <;> rw [h1] <;> decide

theorem asciiClean_noNL {cs : List Char} (h : asciiClean cs) : '\n' ∉ cs := by
  intro hm
  have := h '\n' hm
  rw [show ('\n' : Char).toNat = 10 from rfl] at this
  omega

theorem sigKVs_vals (s : FlipperIRSignal) (hWF : WF s) :
    ∀ kv ∈ sigKVs s, trimStable kv.2 ∧ '\n' ∉ kv.2 := by
  intro kv hkv
  rw [sigKVs_eq] at hkv
  obtain ⟨hname, htype, hparsedWF, hrawWF⟩ := hWF
  rcases List.mem_append.mp hkv with h | h
  · rcases List.mem_cons.mp h with rfl | h2
    · exact ⟨hname.2, asciiClean_noNL hname.1⟩
    · rw [List.mem_singleton.mp h2]
      exact ⟨htype.2, asciiClean_noNL htype.1⟩
  · split at h
    · next hparsed =>
      obtain ⟨hpro, hadr, hcmd, _, _, _⟩ := hparsedWF hparsed
      rcases List.mem_append.mp h with h1 | h1
      · rcases List.mem_append.mp h1 with h2 | h2
        · obtain ⟨p, hp, hpne, rfl⟩ := optKV_mem _ _ kv h2
          rw [hp] at hpro
          exact ⟨hpro.1.2, asciiClean_noNL hpro.1.1⟩
        · obtain ⟨p, hp, hpne, rfl⟩ := optKV_mem _ _ kv h2
          rw [hp] at hadr
          exact ⟨hadr.1.2, asciiClean_noNL hadr.1.1⟩
      · obtain ⟨p, hp, hpne, rfl⟩ := optKV_mem _ _ kv h1
        rw [hp] at hcmd
        exact ⟨hcmd.1.2, asciiClean_noNL hcmd.1.1⟩
    · rcases List.mem_append.mp h with h1 | h1
      · rcases List.mem_append.mp h1 with h2 | h2
        · obtain ⟨i, hi, rfl⟩ := numKV_mem _ _ _ kv h2
          refine ⟨noWs_trimStable _ (fun c hc => (mem_intToChars_facts i c hc).1), ?_⟩
          intro hm
          exact (mem_intToChars_facts i '\n' hm).2 rfl
        · obtain ⟨i, hi, rfl⟩ := numKV_mem _ _ _ kv h2
          refine ⟨noWs_trimStable _ (fun c hc => (mem_formatMicro6_facts i c hc).1), ?_⟩
          intro hm
          exact (mem_formatMicro6_facts i '\n' hm).2 rfl
      · obtain ⟨l, hl, hlne, rfl⟩ := dataKV_mem _ kv h1
        have htok_ne : ∀ t ∈ l.map intToChars, t ≠ [] := by
          intro t ht
          obtain ⟨i, _, rfl⟩ := List.mem_map.mp ht
          exact intToChars_ne_nil i
        have htok_ws : ∀ t ∈ l.map intToChars, ∀ c ∈ t, Lirc.isPySpace c = false := by
          intro t ht c hc
          obtain ⟨i, _, rfl⟩ := List.mem_map.mp ht
          exact (mem_intToChars_facts i c hc).1
        refine ⟨joinSpace_trimStable _ htok_ne htok_ws, ?_⟩
        intro hm
        rcases mem_joinSpace _ '\n' hm with he | ⟨t, ht, hct⟩
        · exact absurd he (by decide)
        · obtain ⟨i, _, rfl⟩ := List.mem_map.mp ht
          exact (mem_intToChars_facts i '\n' hct).2 rfl

theorem optional_str_some (p : String) (h : trimStable p.data) (hne : p ≠ "") :
    optional_str (some p) = some p := by
  have hp : (⟨Lirc.pyStrip p.data⟩ : String) = p := by rw [h]
  show (if (⟨Lirc.pyStrip p.data⟩ : String) = "" then none
    else some (⟨Lirc.pyStrip p.data⟩ : String)) = some p
  rw [hp, if_neg hne]

theorem parse_data_value (l : List Int) :
    (splitWs (joinSpace (l.map intToChars))).filterMap (fun t => parsePyIntBase0 ⟨t⟩) = l := by
  rw [splitWs_join (l.map intToChars)
    (by
      intro t ht
      obtain ⟨i, _, rfl⟩ := List.mem_map.mp ht
      exact intToChars_ne_nil i)
    (by
      intro t ht c hc
      obtain ⟨i, _, rfl⟩ := List.mem_map.mp ht
      exact (mem_intToChars_facts i c hc).1)]
  exact filterMap_parse_ints l

theorem payload_get_split (s : FlipperIRSignal) (key : String) (v : List Char)
    (pre post : List (String × List Char))
    (hdecomp : sigKVs s = pre ++ (key, v) :: post) (hpost : ∀ kv ∈ post, kv.1 ≠ key) :
    plGet (payloadOf s) key = some ⟨v⟩ := by
  rw [payloadOf, hdecomp, List.foldl_append, List.foldl_cons, plGet_foldl_ne key post hpost,
    plGet_plInsert, if_pos rfl]

theorem payload_get_absent (s : FlipperIRSignal) (key : String)
    (h : ∀ kv ∈ sigKVs s, kv.1 ≠ key) : plGet (payloadOf s) key = none := by
  rw [payloadOf, plGet_foldl_ne key _ h []]
  rfl

theorem absent_protocol (s : FlipperIRSignal)
    (h : s.signal_type = "parsed" → s.protocol = none) :
    plGet (payloadOf s) "protocol" = none := by
  apply payload_get_absent
  intro kv hkv
  rw [sigKVs_eq] at hkv
  rcases List.mem_append.mp hkv with hh | ht
  · rcases List.mem_cons.mp hh with rfl | h2
    · simp
    · rw [List.mem_singleton.mp h2]
      simp
  · split at ht
    · next hparsed =>
      rw [h hparsed] at ht
      rcases List.mem_append.mp ht with h1 | h1
      · rcases List.mem_append.mp h1 with h2 | h2
        · simp [optKV] at h2
        · rw [optKV_keys _ _ kv h2]
          decide
      · rw [optKV_keys _ _ kv h1]
        decide
    · rcases List.mem_append.mp ht with h1 | h1
      · rcases List.mem_append.mp h1 with h2 | h2
        · rw [numKV_keys _ _ _ kv h2]
          decide
        · rw [numKV_keys _ _ _ kv h2]
          decide
      · rw [dataKV_keys _ kv h1]
        decide

theorem absent_address (s : FlipperIRSignal)
    (h : s.signal_type = "parsed" → s.address = none) :
    plGet (payloadOf s) "address" = none := by
  apply payload_get_absent
  intro kv hkv
  rw [sigKVs_eq] at hkv
  rcases List.mem_append.mp hkv with hh | ht
  · rcases List.mem_cons.mp hh with rfl | h2
    · simp
    · rw [List.mem_singleton.mp h2]
      simp
  · split at ht
    · next hparsed =>
      rw [h hparsed] at ht
      rcases List.mem_append.mp ht with h1 | h1
      · rcases List.mem_append.mp h1 with h2 | h2
        · rw [optKV_keys _ _ kv h2]
          decide
        · simp [optKV] at h2
      · rw [optKV_keys _ _ kv h1]
        decide
    · rcases List.mem_append.mp ht with h1 | h1
      · rcases List.mem_append.mp h1 with h2 | h2
        · rw [numKV_keys _ _ _ kv h2]
          decide
        · rw [numKV_keys _ _ _ kv h2]
          decide
      · rw [dataKV_keys _ kv h1]
        decide

theorem absent_command (s : FlipperIRSignal)
    (h : s.signal_type = "parsed" → s.command = none) :
    plGet (payloadOf s) "command" = none := by
  apply payload_get_absent
  intro kv hkv
  rw [sigKVs_eq] at hkv
  rcases List.mem_append.mp hkv with hh | ht
  · rcases List.mem_cons.mp hh with rfl | h2
    · simp
    · rw [List.mem_singleton.mp h2]
      simp
  · split at ht
    · next hparsed =>
      rw [h hparsed] at ht
      rcases List.mem_append.mp ht with h1 | h1
      · rcases List.mem_append.mp h1 with h2 | h2
        · rw [optKV_keys _ _ kv h2]
          decide
        · rw [optKV_keys _ _ kv h2]
          decide
      · simp [optKV] at h1
    · rcases List.mem_append.mp ht with h1 | h1
      · rcases List.mem_append.mp h1 with h2 | h2
        · rw [numKV_keys _ _ _ kv h2]
          decide
        · rw [numKV_keys _ _ _ kv h2]
          decide
      · rw [dataKV_keys _ kv h1]
        decide

theorem absent_frequency (s : FlipperIRSignal)
    (h : s.signal_type ≠ "parsed" → s.frequency = none) :
    plGet (payloadOf s) "frequency" = none := by
  apply payload_get_absent
  intro kv hkv
  rw [sigKVs_eq] at hkv
  rcases List.mem_append.mp hkv with hh | ht
  · rcases List.mem_cons.mp hh with rfl | h2
    · simp
    · rw [List.mem_singleton.mp h2]
      simp
  · split at ht
    · rcases List.mem_append.mp ht with h1 | h1
      · rcases List.mem_append.mp h1 with h2 | h2
        · rw [optKV_keys _ _ kv h2]
          decide
        · rw [optKV_keys _ _ kv h2]
          decide
      · rw [optKV_keys _ _ kv h1]
        decide
    · next hparsed =>
      rw [h hparsed] at ht
      rcases List.mem_append.mp ht with h1 | h1
      · rcases List.mem_append.mp h1 with h2 | h2
        · simp [numKV] at h2
        · rw [numKV_keys _ _ _ kv h2]
          decide
      · rw [dataKV_keys _ kv h1]
        decide

theorem absent_duty (s : FlipperIRSignal)
    (h : s.signal_type ≠ "parsed" → s.duty_cycle = none) :
    plGet (payloadOf s) "duty_cycle" = none := by
  apply payload_get_absent
  intro kv hkv
  rw [sigKVs_eq] at hkv
  rcases List.mem_append.mp hkv with hh | ht
  · rcases List.mem_cons.mp hh with rfl | h2
    · simp
    · rw [List.mem_singleton.mp h2]
      simp
  · split at ht
    · rcases List.mem_append.mp ht with h1 | h1
      · rcases List.mem_append.mp h1 with h2 | h2
        · rw [optKV_keys _ _ kv h2]
          decide
        · rw [optKV_keys _ _ kv h2]
          decide
      · rw [optKV_keys _ _ kv h1]
        decide
    · next hparsed =>
      rw [h hparsed] at ht
      rcases List.mem_append.mp ht with h1 | h1
      · rcases List.mem_append.mp h1 with h2 | h2
        · rw [numKV_keys _ _ _ kv h2]
          decide
        · simp [numKV] at h2
      · rw [dataKV_keys _ kv h1]
        decide

theorem absent_data (s : FlipperIRSignal)
    (h : s.signal_type ≠ "parsed" → s.data = none ∨ s.data = some []) :
    plGet (payloadOf s) "data" = none := by
  apply payload_get_absent
  intro kv hkv
  rw [sigKVs_eq] at hkv
  rcases List.mem_append.mp hkv with hh | ht
  · rcases List.mem_cons.mp hh with rfl | h2
    · simp
    · rw [List.mem_singleton.mp h2]
      simp
  · split at ht
    · rcases List.mem_append.mp ht with h1 | h1
      · rcases List.mem_append.mp h1 with h2 | h2
        · rw [optKV_keys _ _ kv h2]
          decide
        · rw [optKV_keys _ _ kv h2]
          decide
      · rw [optKV_keys _ _ kv h1]
        decide
    · next hparsed =>
      rcases List.mem_append.mp ht with h1 | h1
      · rcases List.mem_append.mp h1 with h2 | h2
        · rw [numKV_keys _ _ _ kv h2]
          decide
        · rw [numKV_keys _ _ _ kv h2]
          decide
      · rcases h hparsed with hd | hd <;> rw [hd] at h1
        · simp [dataKV] at h1
        · simp [dataKV] at h1

theorem payload_name (s : FlipperIRSignal) : plGet (payloadOf s) "name" = some s.name := by
  have hdecomp : sigKVs s = [] ++ ("name", s.name.data) ::
      (("type", s.signal_type.data) ::
        (if s.signal_type = "parsed" then
          optKV "protocol" s.protocol ++ optKV "address" s.address ++
            optKV "command" s.command
        else
          numKV "frequency" s.frequency intToChars ++
            numKV "duty_cycle" s.duty_cycle formatMicro6 ++ dataKV s.data)) :=
    sigKVs_eq s
  exact payload_get_split s "name" s.name.data _ _ hdecomp (by
    intro kv hkv
    rcases List.mem_cons.mp hkv with rfl | h2
    · simp
    · rcases sigKVs_tail_keys s kv h2 with h1 | h1 | h1 | h1 | h1 | h1 <;> rw [h1] <;> decide)

theorem payload_type (s : FlipperIRSignal) :
    plGet (payloadOf s) "type" = some s.signal_type := by
  have hdecomp : sigKVs s = [("name", s.name.data)] ++ ("type", s.signal_type.data) ::
      (if s.signal_type = "parsed" then
        optKV "protocol" s.protocol ++ optKV "address" s.address ++ optKV "command" s.command
      else
        numKV "frequency" s.frequency intToChars ++
          numKV "duty_cycle" s.duty_cycle formatMicro6 ++ dataKV s.data) :=
    sigKVs_eq s
  exact payload_get_split s "type" s.signal_type.data _ _ hdecomp (by
    intro kv hkv
    rcases sigKVs_tail_keys s kv hkv with h1 | h1 | h1 | h1 | h1 | h1 <;> rw [h1] <;> decide)

theorem payload_protocol (s : FlipperIRSignal) (hparsed : s.signal_type = "parsed")
    (hgood : goodOptField s.protocol) :
    optional_str (plGet (payloadOf s) "protocol") = s.protocol := by
  cases hp : s.protocol with
  | none =>
    rw [absent_protocol s (fun _ => hp)]
    rfl
  | some p =>
    rw [hp] at hgood
    have hdecomp : sigKVs s = ([("name", s.name.data), ("type", s.signal_type.data)] ++
        ([] : List (String × List Char))) ++ ("protocol", p.data) ::
        (optKV "address" s.address ++ optKV "command" s.command) := by
      rw [sigKVs_eq, if_pos hparsed, hp]
      rw [show optKV "protocol" (some p) = [("protocol", p.data)] from by
        rw [optKV, if_pos hgood.2]]
      simp
    rw [payload_get_split s "protocol" p.data _ _ hdecomp (by
      intro kv hkv
      rcases List.mem_append.mp hkv with h1 | h1 <;> rw [optKV_keys _ _ kv h1] <;> decide)]
    exact optional_str_some p hgood.1.2 hgood.2

theorem payload_address (s : FlipperIRSignal) (hparsed : s.signal_type = "parsed")
    (hgood : goodOptField s.address) :
    optional_str (plGet (payloadOf s) "address") = s.address := by
  cases ha : s.address with
  | none =>
    rw [absent_address s (fun _ => ha)]
    rfl
  | some a =>
    rw [ha] at hgood
    have hdecomp : sigKVs s = ([("name", s.name.data), ("type", s.signal_type.data)] ++
        optKV "protocol" s.protocol) ++ ("address", a.data) ::
        optKV "command" s.command := by
      rw [sigKVs_eq, if_pos hparsed, ha]
      rw [show optKV "address" (some a) = [("address", a.data)] from by
        rw [optKV, if_pos hgood.2]]
      simp
    rw [payload_get_split s "address" a.data _ _ hdecomp (by
      intro kv hkv
      rw [optKV_keys _ _ kv hkv]
      decide)]
    exact optional_str_some a hgood.1.2 hgood.2

theorem payload_command (s : FlipperIRSignal) (hparsed : s.signal_type = "parsed")
    (hgood : goodOptField s.command) :
    optional_str (plGet (payloadOf s) "command") = s.command := by
  cases hc : s.command with
  | none =>
    rw [absent_command s (fun _ => hc)]
    rfl
  | some c =>
    rw [hc] at hgood
    have hdecomp : sigKVs s = ([("name", s.name.data), ("type", s.signal_type.data)] ++
        (optKV "protocol" s.protocol ++ optKV "address" s.address)) ++
        ("command", c.data) :: [] := by
      rw [sigKVs_eq, if_pos hparsed, hc]
      rw [show optKV "command" (some c) = [("command", c.data)] from by
        rw [optKV, if_pos hgood.2]]
      simp
    rw [payload_get_split s "command" c.data _ _ hdecomp (by intro kv hkv; simp at hkv)]
    exact optional_str_some c hgood.1.2 hgood.2

theorem payload_frequency (s : FlipperIRSignal) (hraw : s.signal_type ≠ "parsed") :
    (plGet (payloadOf s) "frequency").bind parsePyInt10 = s.frequency := by
  cases hf : s.frequency with
  | none =>
    rw [absent_frequency s (fun _ => hf)]
    rfl
  | some f =>
    have hdecomp : sigKVs s = ([("name", s.name.data), ("type", s.signal_type.data)] ++
        ([] : List (String × List Char))) ++ ("frequency", intToChars f) ::
        (numKV "duty_cycle" s.duty_cycle formatMicro6 ++ dataKV s.data) := by
      rw [sigKVs_eq, if_neg hraw, hf]
      rw [show numKV "frequency" (some f) intToChars = [("frequency", intToChars f)] from rfl]
      simp
    rw [payload_get_split s "frequency" (intToChars f) _ _ hdecomp (by
      intro kv hkv
      rcases List.mem_append.mp hkv with h1 | h1
      · rw [numKV_keys _ _ _ kv h1]
        decide
      · rw [dataKV_keys _ kv h1]
        decide)]
    rw [Option.some_bind, parsePyInt10_intToChars]

theorem payload_duty (s : FlipperIRSignal) (hraw : s.signal_type ≠ "parsed") :
    (plGet (payloadOf s) "duty_cycle").bind parsePyFloatMicro = s.duty_cycle := by
  cases hd : s.duty_cycle with
  | none =>
    rw [absent_duty s (fun _ => hd)]
    rfl
  | some d =>
    have hdecomp : sigKVs s = ([("name", s.name.data), ("type", s.signal_type.data)] ++
        numKV "frequency" s.frequency intToChars) ++ ("duty_cycle", formatMicro6 d) ::
        dataKV s.data := by
      rw [sigKVs_eq, if_neg hraw, hd]
      rw [show numKV "duty_cycle" (some d) formatMicro6 = [("duty_cycle", formatMicro6 d)]
        from rfl]
      simp
    rw [payload_get_split s "duty_cycle" (formatMicro6 d) _ _ hdecomp (by
      intro kv hkv
      rw [dataKV_keys _ kv hkv]
      decide)]
    rw [Option.some_bind, parsePyFloatMicro_formatMicro6]

theorem payload_data (s : FlipperIRSignal) (hraw : s.signal_type ≠ "parsed")
    (hne : s.data ≠ some []) :
    (plGet (payloadOf s) "data").map
      (fun v => (splitWs v.data).filterMap (fun t => parsePyIntBase0 ⟨t⟩)) = s.data := by
  cases hd : s.data with
  | none =>
    rw [absent_data s (fun _ => Or.inl hd)]
    rfl
  | some l =>
    have hlne : l ≠ [] := by
      intro he
      rw [he] at hd
      exact hne hd
    have hdecomp : sigKVs s = ([("name", s.name.data), ("type", s.signal_type.data)] ++
        (numKV "frequency" s.frequency intToChars ++
          numKV "duty_cycle" s.duty_cycle formatMicro6)) ++
        ("data", joinSpace (l.map intToChars)) :: [] := by
      rw [sigKVs_eq, if_neg hraw, hd]
      rw [show dataKV (some l) = [("data", joinSpace (l.map intToChars))] from by
        rw [dataKV, if_pos hlne]]
      simp
    rw [payload_get_split s "data" (joinSpace (l.map intToChars)) _ _ hdecomp
      (by intro kv hkv; simp at hkv)]
    rw [Option.map_some']
    rw [show (⟨joinSpace (l.map intToChars)⟩ : String).data = joinSpace (l.map intToChars)
      from rfl]
    rw [parse_data_value]

theorem build_payloadOf (s : FlipperIRSignal) (hWF : WF s) :
    build_signal (payloadOf s) = s := by
  obtain ⟨hgname, hgtype, hparsedWF, hrawWF⟩ := hWF
  have hn := payload_name s
  have ht := payload_type s
  by_cases hparsed : s.signal_type = "parsed"
  · obtain ⟨hpro, hadr, hcmd, hfr, hdu, hda⟩ := hparsedWF hparsed
    have h3 := payload_protocol s hparsed hpro
    have h4 := payload_address s hparsed hadr
    have h5 := payload_command s hparsed hcmd
    have h6 := absent_frequency s (fun hc => absurd hparsed hc)
    have h7 := absent_duty s (fun hc => absurd hparsed hc)
    have h8 := absent_data s (fun hc => absurd hparsed hc)
    obtain ⟨nm, st, pr, ad, co, fr, du, da⟩ := s
    simp only at hparsed hfr hdu hda
    subst hparsed hfr hdu hda
    simp only [build_signal, hn, ht, h3, h4, h5, h6, h7, h8, Option.getD_some,
      Option.none_bind]
    rw [if_neg (by simp)]
  · obtain ⟨hpr, had, hco, hda⟩ := hrawWF hparsed
    have h3 := absent_protocol s (fun hc => absurd hc hparsed)
    have h4 := absent_address s (fun hc => absurd hc hparsed)
    have h5 := absent_command s (fun hc => absurd hc hparsed)
    have h6 := payload_frequency s hparsed
    have h7 := payload_duty s hparsed
    have h8 := payload_data s hparsed hda
    obtain ⟨nm, st, pr, ad, co, fr, du, da⟩ := s
    simp only at hparsed hpr had hco
    subst hpr had hco
    simp only [build_signal, hn, ht, h3, h4, h5, h6, h7, Option.getD_some,
      show optional_str none = none from rfl]
    rw [if_pos (by simpa using hparsed)]
    rw [h8]

theorem parse_block (s : FlipperIRSignal) (hWF : WF s) (rest : List (List Char))
    (cur : List (String × String)) :
    parseLinesAux (sigLines s ++ rest) cur =
      (if cur ≠ [] then [build_signal cur] else []) ++ parseLinesAux rest (payloadOf s) := by
  rw [show sigLines s ++ rest =
    ['#'] :: ((sigKVs s).map (fun kv => mkLine kv.1 kv.2) ++ rest) from by
    rw [sigLines]
    rfl]
  rw [parse_hash]
  have hkv := parse_kvs (sigKVs s) (sigKVs_keys s)
    (fun kv hkv => (sigKVs_vals s hWF kv hkv).1) rest []
  split
  · rw [hkv]
    rfl
  · rw [hkv]
    rfl

theorem parse_tail : ∀ (sigs : List FlipperIRSignal), (∀ t ∈ sigs, WF t) →
    ∀ (cur : List (String × String)), cur ≠ [] →
    parseLinesAux (sigs.flatMap (fun t => [] :: sigLines t) ++ [[]]) cur =
      build_signal cur :: sigs := by
  intro sigs
  induction sigs with
  | nil =>
    intro _ cur hc
    rw [show (([] : List FlipperIRSignal).flatMap (fun t => [] :: sigLines t)) = []
      from by simp]
    rw [List.nil_append, parse_blank, parseLinesAux, if_pos hc]
  | cons t ts ih =>
    intro hWF cur hc
    rw [show (t :: ts).flatMap (fun u => [] :: sigLines u) ++ [[]] =
      [] :: (sigLines t ++ (ts.flatMap (fun u => [] :: sigLines u) ++ [[]])) from by simp]
    rw [parse_blank, parse_block t (hWF t (List.mem_cons_self _ _)) _ cur, if_pos hc]
    rw [ih (fun u hu => hWF u (List.mem_cons_of_mem _ hu)) (payloadOf t) (payloadOf_ne_nil t)]
    rw [build_payloadOf t (hWF t (List.mem_cons_self _ _))]
    rfl

theorem sigLines_noNL (t : FlipperIRSignal) (hWF : WF t) :
    ∀ l ∈ sigLines t, '\n' ∉ l := by
  intro l hl
  rw [sigLines] at hl
  rcases List.mem_cons.mp hl with rfl | hmem
  · decide
  · obtain ⟨kv, hkv, rfl⟩ := List.mem_map.mp hmem
    rw [mkLine]
    intro hnl
    rcases List.mem_append.mp hnl with hk | hv
    · have := sigKVs_keys t kv hkv
      simp only [List.mem_cons, List.mem_singleton, List.not_mem_nil, or_false] at this
      rcases this with h | h | h | h | h | h | h | h <;> rw [h] at hk <;> revert hk <;> decide
    · rcases List.mem_cons.mp hv with he | hv2
      · exact absurd he (by decide)
      · rcases List.mem_cons.mp hv2 with he | hv3
        · exact absurd he (by decide)
        · exact (sigKVs_vals t hWF kv hkv).2 hv3

theorem signalsLines_noNL (sigs : List FlipperIRSignal) (h : ∀ t ∈ sigs, WF t) :
    ∀ l ∈ signalsLines sigs, '\n' ∉ l := by
  intro l hl
  cases sigs with
  | nil => simp [signalsLines] at hl
  | cons s rest =>
    rw [signalsLines] at hl
    rcases List.mem_append.mp hl with h1 | h1
    · exact sigLines_noNL s (h s (List.mem_cons_self _ _)) l h1
    · obtain ⟨t, ht, hlt⟩ := List.mem_flatMap.mp h1
      rcases List.mem_cons.mp hlt with rfl | h2
      · simp
      · exact sigLines_noNL t (h t (List.mem_cons_of_mem _ ht)) l h2

/-- C9: for every list of well-formed signal records mixing parsed and raw
kinds (printable trim-stable strings, with exactly the fields of the record's
kind populated), the persistence round trip is the identity:
`parse_signals (serialize_signals signals) = signals`. -/
theorem c9_persistence_roundtrip (signals : List FlipperIRSignal)
    (h : ∀ s ∈ signals, WF s) :
    parse_signals (serialize_signals signals) = signals := by
  cases signals with
  | nil => rfl
  | cons s rest =>
    rw [parse_signals, serialize_signals]
    rw [show (⟨joinNL (signalsLines (s :: rest)) ++ ['\n']⟩ : String).data =
      joinNL (signalsLines (s :: rest)) ++ ['\n'] from rfl]
    rw [splitLines_joinNL (signalsLines (s :: rest))
      (by
        rw [show signalsLines (s :: rest) =
          sigLines s ++ rest.flatMap (fun u => [] :: sigLines u) from rfl]
        simp [sigLines])
      (signalsLines_noNL _ h)]
    rw [show signalsLines (s :: rest) =
      sigLines s ++ rest.flatMap (fun u => [] :: sigLines u) from rfl]
    rw [List.append_assoc]
    rw [parse_block s (h s (List.mem_cons_self _ _)) _ [], if_neg (by simp), List.nil_append]
    cases rest with
    | nil =>
      rw [show (([] : List FlipperIRSignal).flatMap (fun u => [] :: sigLines u)) ++ [[]] =
        [[]] from by simp]
      rw [parse_blank, parseLinesAux, if_pos (payloadOf_ne_nil s)]
      rw [build_payloadOf s (h s (List.mem_cons_self _ _))]
    | cons t ts =>
      rw [parse_tail (t :: ts) (fun u hu => h u (List.mem_cons_of_mem _ hu))
        (payloadOf s) (payloadOf_ne_nil s)]
      rw [build_payloadOf s (h s (List.mem_cons_self _ _))]

/-- C9 witness: the round trip applied to a concrete two-record library, one
parsed NEC record and one raw record with frequency, duty cycle and data. -/
theorem c9_witness :
    (∀ s ∈ ([⟨"Power", "parsed", some "NEC", some "01", some "02", none, none, none⟩,
        ⟨"Fan", "raw", none, none, none, some 38000, some 330000,
          some [100, 200, 4500]⟩] : List FlipperIRSignal), WF s) ∧
    parse_signals (serialize_signals
        [⟨"Power", "parsed", some "NEC", some "01", some "02", none, none, none⟩,
         ⟨"Fan", "raw", none, none, none, some 38000, some 330000,
           some [100, 200, 4500]⟩]) =
      [⟨"Power", "parsed", some "NEC", some "01", some "02", none, none, none⟩,
       ⟨"Fan", "raw", none, none, none, some 38000, some 330000, some [100, 200, 4500]⟩] :=
  ⟨by decide, c9_persistence_roundtrip _ (by decide)⟩

end Flipper
